import Mathlib

/-!
Verification of the artela-evm state tracer, call tree and opcode handlers.

The definitions below are a shallow embedding of the Go sources of the
repository: `vm/tracer.go` (storage-change records, storage-key tree, call
tree, tracer), and `vm/constants.go` (opcode handlers, including the custom
journal opcodes).  256-bit machine words are modeled as `Nat` with explicit
reduction modulo `2 ^ 256` where the Go code relies on overflow; byte strings
are `List Nat`; Go maps are modeled as total functions into `Option`/lists
(an absent key and the corresponding zero value are observationally equal in
every modeled operation); Go pointers to heap nodes are modeled as numeric
ids into an explicit heap.
-/

set_option maxHeartbeats 1000000

namespace ArtelaEVM

/-- The EVM word modulus `2 ^ 256`. -/
def W256 : Nat := 2 ^ 256

/-- The `uint64` modulus, for Go `uint64` arithmetic that may wrap. -/
def W64 : Nat := 2 ^ 64

/-- Go `uint64` subtraction `a - b` (wraps modulo `2 ^ 64`). -/
def u64sub (a b : Nat) : Nat := (a + W64 - b % W64) % W64

/-- Helper for `natToBytes`, structurally recursive on a fuel bound. -/
def natToBytesAux : Nat → Nat → List Nat
  | 0, _ => []
  | fuel + 1, n => if n = 0 then [] else natToBytesAux fuel (n / 256) ++ [n % 256]

/-- `uint256.Int.Bytes()`: minimal big-endian byte encoding (empty for
zero); `n` itself bounds the recursion depth. -/
def natToBytes (n : Nat) : List Nat := natToBytesAux n n

/-- `uint256.Int.Bytes32()` / `common.Hash`: 32-byte big-endian encoding. -/
def natToBytes32 (n : Nat) : List Nat :=
  (List.range 32).map (fun i => n / 256 ^ (31 - i) % 256)

/-! ## StorageChanges (`vm/tracer.go` lines 19-45)

`StorageChanges` holds `changes map[uint64][][]byte`.  The map is modeled as a
total function from call index to the list of recorded values: in the Go
`append` method a missing key behaves exactly like a present empty slice
(both branches end in `append(changes, newVal)` on a nil/empty slice), and
stored slices are always non-empty, so the two representations coincide. -/

def StorageChanges : Type := Nat → List (List Nat)

/-- `newStorageChange` (`vm/tracer.go`): the empty record. -/
def newStorageChange : StorageChanges := fun _ => []

/-- `StorageChanges.append` (`vm/tracer.go` lines 30-40): if the list under
`callIdx` is non-empty and its last element equals `newVal`, the change is
ignored; otherwise `newVal` is appended under `callIdx`. -/
def StorageChanges.append (c : StorageChanges) (callIdx : Nat) (newVal : List Nat) :
    StorageChanges :=
  if (c callIdx).getLast? = some newVal then c
  else fun j => if j = callIdx then c callIdx ++ [newVal] else c j

/-- A sequence of `append` operations `(callIdx, newVal)` run left to right
from a given record. -/
def runAppends (start : StorageChanges) (ops : List (Nat × List Nat)) : StorageChanges :=
  ops.foldl (fun c op => c.append op.1 op.2) start

/-! ## Shift opcodes (`vm/constants.go` lines 202-247)

The handlers pop the shift amount and peek the value; we model the stack as a
list with the top first, the handler returning the resulting stack (`none`
for stack underflow, which in the interpreter is prevented by the opcode
table's stack checks). -/

/-- `opSHL`: `value << shift` modulo `2 ^ 256` when `shift < 256`, else 0. -/
def opSHL (stack : List Nat) : Option (List Nat) :=
  match stack with
  | shift :: value :: rest =>
      some ((if shift < 256 then value * 2 ^ shift % W256 else 0) :: rest)
  | _ => none

/-- `opSHR`: `value >> shift` (zero fill) when `shift < 256`, else 0. -/
def opSHR (stack : List Nat) : Option (List Nat) :=
  match stack with
  | shift :: value :: rest =>
      some ((if shift < 256 then value / 2 ^ shift else 0) :: rest)
  | _ => none

/-- `uint256.Int.Sign()`: 0 for zero, -1 when bit 255 is set, else 1. -/
def sign256 (x : Nat) : Int :=
  if x = 0 then 0 else if 2 ^ 255 ≤ x then -1 else 1

/-- `uint256.Int.SRsh`: arithmetic (sign-extending) right shift of a 256-bit
two's-complement word, i.e. `~((~x) >> n)` for negative `x`. -/
def srsh (x n : Nat) : Nat :=
  if x < 2 ^ 255 then x / 2 ^ n
  else W256 - 1 - (W256 - 1 - x) / 2 ^ n

/-- `opSAR`: for `shift > 256` the result is 0 (non-negative value) or
all ones (negative value); otherwise an arithmetic right shift. -/
def opSAR (stack : List Nat) : Option (List Nat) :=
  match stack with
  | shift :: value :: rest =>
      some ((if 256 < shift then
               if 0 ≤ sign256 value then 0 else W256 - 1
             else srsh value shift) :: rest)
  | _ => none

/-! ## Storage key tree (`vm/tracer.go` lines 47-158)

Go `*StorageKey` pointers are modeled as numeric ids into the heap
`StateChanges.nodes`; `StateChanges.nextId` is the allocation counter. -/

inductive NodeType where
  | RootNode
  | BranchNode
  | DataNode
deriving DecidableEq

/-- `StorageKey` (`vm/tracer.go` lines 47-57).  On a root node the Go `slot`
pointer is nil and never dereferenced; it is modeled as 0 here. -/
structure StorageKey where
  slot : Nat
  offset : Nat
  typeId : Nat
  data : List Nat
  children : Nat → Nat → Option Nat
  childrenIndex : List Nat → Option Nat
  changes : Option StorageChanges
  nodeType : NodeType

/-- `NewBranchKey` (`vm/tracer.go` lines 59-72). -/
def NewBranchKey (slot offset typeId : Nat) (data : List Nat) : StorageKey :=
  { slot := slot, offset := offset, typeId := typeId, data := data,
    children := fun _ _ => none, childrenIndex := fun _ => none,
    changes := none, nodeType := .BranchNode }

/-- `NewRootKey` (`vm/tracer.go` lines 74-84). -/
def NewRootKey : StorageKey :=
  { slot := 0, offset := 0, typeId := 0, data := [],
    children := fun _ _ => none, childrenIndex := fun _ => none,
    changes := none, nodeType := .RootNode }

/-- `StorageKey.JournalChanges` (`vm/tracer.go` lines 148-158): create the
changes record on first use, turning a non-root node into a data node, then
append. -/
def StorageKey.JournalChanges (k : StorageKey) (callIdx : Nat) (newVal : List Nat) :
    StorageKey :=
  match k.changes with
  | none =>
      { k with
        nodeType := if k.nodeType ≠ .RootNode then .DataNode else k.nodeType,
        changes := some (newStorageChange.append callIdx newVal) }
  | some c => { k with changes := some (c.append callIdx newVal) }

/-! ## StateChanges (`vm/tracer.go` lines 160-371) -/

/-- `StateChanges` (`vm/tracer.go` lines 160-168): per-account storage-key
roots, the flat `(account, slot, offset, typeId)` index, and the raw slot
log, plus the node heap realising Go's pointers. -/
structure StateChanges where
  nodes : Nat → Option StorageKey
  nextId : Nat
  roots : Nat → Option Nat
  index : Nat → Nat → Nat → Nat → Option Nat
  raw : Nat → Nat → Nat → Option Nat

/-- `NewStateChanges` (`vm/tracer.go` lines 170-177). -/
def NewStateChanges : StateChanges :=
  { nodes := fun _ => none, nextId := 0, roots := fun _ => none,
    index := fun _ _ _ _ => none, raw := fun _ _ _ => none }

/-- Allocate a fresh node, returning the id. -/
def StateChanges.alloc (s : StateChanges) (k : StorageKey) : StateChanges × Nat :=
  ({ s with
     nodes := fun i => if i = s.nextId then some k else s.nodes i,
     nextId := s.nextId + 1 }, s.nextId)

/-- Overwrite the node stored at `id` (a Go in-place mutation through a
pointer). -/
def StateChanges.writeNode (s : StateChanges) (id : Nat) (k : StorageKey) : StateChanges :=
  { s with nodes := fun i => if i = id then some k else s.nodes i }

/-- `StorageKey.AddChild` (`vm/tracer.go` lines 123-142), specialised to the
fresh candidate `NewBranchKey slot offset typeId data` that `saveKey` always
passes, acting on the node `pk` stored at `pid`.  The candidate is stored in
the parent's `childrenIndex` when its label cell is free, and in `children`
when its `(slot, offset)` cell is free; the method returns the `(slot,
offset)` occupant (the candidate itself when that cell was free).  The Go
code always allocates the candidate; when neither cell receives it the
allocation is unreachable garbage and is elided here. -/
def StateChanges.addChild (s : StateChanges) (pid : Nat) (pk : StorageKey)
    (slot offset typeId : Nat) (data : List Nat) : StateChanges × Nat :=
  match pk.children slot offset, pk.childrenIndex data with
  | some existing, some _ => (s, existing)
  | some existing, none =>
      let (s1, cid) := s.alloc (NewBranchKey slot offset typeId data)
      (s1.writeNode pid
        { pk with childrenIndex := fun l => if l = data then some cid else pk.childrenIndex l },
       existing)
  | none, some _ =>
      let (s1, cid) := s.alloc (NewBranchKey slot offset typeId data)
      (s1.writeNode pid
        { pk with children := fun sl o =>
            if sl = slot ∧ o = offset then some cid else pk.children sl o },
       cid)
  | none, none =>
      let (s1, cid) := s.alloc (NewBranchKey slot offset typeId data)
      (s1.writeNode pid
        { pk with
          children := fun sl o =>
            if sl = slot ∧ o = offset then some cid else pk.children sl o,
          childrenIndex := fun l => if l = data then some cid else pk.childrenIndex l },
       cid)

/-- `StateChanges.addKey` (`vm/tracer.go` lines 260-275): register `id` in
the flat index cell, only if the cell is still free.  The Go method reads
`slot`, `offset` and `typeId` off the registered node; callers below pass
exactly those fields. -/
def StateChanges.addKey (s : StateChanges) (account slot offset typeId id : Nat) :
    StateChanges :=
  match s.index account slot offset typeId with
  | some _ => s
  | none =>
      { s with index := fun a sl o t =>
          if a = account ∧ sl = slot ∧ o = offset ∧ t = typeId then some id
          else s.index a sl o t }

/-- `StateChanges.findKey` (`vm/tracer.go` lines 277-290). -/
def StateChanges.findKey (s : StateChanges) (account slot offset typeId : Nat) : Option Nat :=
  s.index account slot offset typeId

/-- The offset guard of `saveKey`/`saveChange`/`Slot`: a nil offset pointer
becomes 0; a value above 31 — which subsumes uint64 overflow — is rejected. -/
def checkOffset : Option Nat → Option Nat
  | none => some 0
  | some o => if 31 < o then none else some o

/-- `addKey` applied to a returned child id, reading the registered fields
off the node as `s.addKey(account, child.Slot(), child.Offset(), child)`
does. -/
def StateChanges.addKeyOf (s : StateChanges) (account cid : Nat) : StateChanges :=
  match s.nodes cid with
  | some n => s.addKey account n.slot n.offset n.typeId cid
  | none => s

/-- `StateChanges.saveKey` (`vm/tracer.go` lines 200-234).  The
`dangling node id` branches are unreachable: ids stored in `roots` and
`index` always point at allocated nodes (in Go they are the pointers
themselves). -/
def StateChanges.saveKey (s : StateChanges) (account : Nat) (parent : Option Nat)
    (self : Nat) (offset : Option Nat) (typeId parentTypeId : Nat) (index : List Nat) :
    Except String StateChanges :=
  match checkOffset offset with
  | none => .error "offset overflow"
  | some offsetU8 =>
    match parent with
    | none =>
        let rt : StateChanges × Nat :=
          match s.roots account with
          | some r => (s, r)
          | none =>
              let ar := s.alloc NewRootKey
              ({ ar.1 with
                 roots := fun a => if a = account then some ar.2 else ar.1.roots a },
               ar.2)
        match rt.1.nodes rt.2 with
        | some rootKey =>
            let res := rt.1.addChild rt.2 rootKey self offsetU8 typeId index
            .ok (res.1.addKeyOf account res.2)
        | none => .error "dangling node id"
    | some parentSlot =>
        match s.findKey account parentSlot 0 parentTypeId with
        | none => .error "parent key not found"
        | some pid =>
            match s.nodes pid with
            | some parentKey =>
                let res := s.addChild pid parentKey self offsetU8 typeId index
                .ok (res.1.addKeyOf account res.2)
            | none => .error "dangling node id"

/-- `StateChanges.saveChange` (`vm/tracer.go` lines 236-258). -/
def StateChanges.saveChange (s : StateChanges) (account self : Nat) (offset : Option Nat)
    (typeId callIdx : Nat) (newVal : List Nat) : Except String StateChanges :=
  match checkOffset offset with
  | none => .error "offset overflow"
  | some offsetU8 =>
    match s.roots account with
    | none => .error "unknown account"
    | some _ =>
      match s.findKey account self offsetU8 typeId with
      | none => .error "storage key node not found"
      | some id =>
        match s.nodes id with
        | some n => .ok (s.writeNode id (n.JournalChanges callIdx newVal))
        | none => .error "dangling node id"

/-- `StateChanges.saveBalance` (`vm/tracer.go` lines 179-187): journal the
minimal big-endian bytes of the balance on the account's root node, creating
the root on first use. -/
def StateChanges.saveBalance (s : StateChanges) (account newBalance callIdx : Nat) :
    StateChanges :=
  match s.roots account with
  | some rid =>
      match s.nodes rid with
      | some rk => s.writeNode rid (rk.JournalChanges callIdx (natToBytes newBalance))
      | none => s
  | none =>
      let (s1, rid) := s.alloc NewRootKey
      let s2 := { s1 with roots := fun a => if a = account then some rid else s1.roots a }
      s2.writeNode rid (NewRootKey.JournalChanges callIdx (natToBytes newBalance))

/-- `StateChanges.saveRawStateChange` (`vm/tracer.go` lines 189-198):
`raw[account][slot][callIdx] = val`, last write wins. -/
def StateChanges.saveRawStateChange (s : StateChanges) (account slot callIdx val : Nat) :
    StateChanges :=
  { s with raw := fun a sl c =>
      if a = account ∧ sl = slot ∧ c = callIdx then some val else s.raw a sl c }

/-- The balance-change record of an account: the changes stored on its root
node (`StateChanges.Balance`, `vm/tracer.go` lines 292-299), as a list per
call index. -/
def StateChanges.balanceChanges (s : StateChanges) (account callIdx : Nat) :
    List (List Nat) :=
  match s.roots account with
  | none => []
  | some rid =>
      match s.nodes rid with
      | some rk =>
          match rk.changes with
          | some c => c callIdx
          | none => []
      | none => []

/-! ## Call tree (`vm/tracer.go` lines 373-498)

`add` stores every new call at `lookup[count]` with `Index = count`, so the
lookup table is the heap and a call's id is its index; `parent`, `children`
and the `current` cursor hold such ids where Go holds `*Call` pointers. -/

/-- `Call` (`vm/tracer.go` lines 373-386). -/
structure Call where
  fromAddr : Nat
  toAddr : Option Nat
  data : List Nat
  value : Nat
  gas : Nat
  index : Nat
  parent : Option Nat
  children : List Nat
  ret : List Nat
  remainingGas : Nat
  err : Option String

/-- `CallTree` (`vm/tracer.go` lines 411-417). -/
structure CallTree where
  root : Option Nat
  current : Option Nat
  count : Nat
  lookup : Nat → Option Call

/-- `NewCallTree` (`vm/tracer.go` lines 419-423). -/
def NewCallTree : CallTree :=
  { root := none, current := none, count := 0, lookup := fun _ => none }

/-- `CallTree.add` (`vm/tracer.go` lines 425-450): create the call with
`Parent = current` and `Index = count`, set the root if absent, append the
new index to the current call's children, install the call at
`lookup[count]`, move the cursor onto it and bump the counter. -/
def CallTree.add (c : CallTree) (fromAddr : Nat) (toAddr : Option Nat) (data : List Nat)
    (value gas : Nat) : CallTree :=
  let newCall : Call :=
    { fromAddr := fromAddr, toAddr := toAddr, data := data, value := value, gas := gas,
      index := c.count, parent := c.current, children := [], ret := [],
      remainingGas := 0, err := none }
  { root := match c.root with | none => some c.count | some r => some r,
    current := some c.count,
    count := c.count + 1,
    lookup := fun i =>
      if i = c.count then some newCall
      else
        match c.current with
        | some cur =>
            if i = cur then
              (c.lookup cur).map (fun p => { p with children := p.children ++ [c.count] })
            else c.lookup i
        | none => c.lookup i }

/-- The new call stored by `add`. -/
def newCallOf (c : CallTree) (f : Nat) (t : Option Nat) (d : List Nat)
    (v g : Nat) : Call :=
  { fromAddr := f, toAddr := t, data := d, value := v, gas := g,
    index := c.count, parent := c.current, children := [], ret := [],
    remainingGas := 0, err := none }

/-- `CallTree.exit` (`vm/tracer.go` lines 452-463): record the return data
on the current call and move the cursor to its parent; a no-op when the
cursor is nil. -/
def CallTree.exit (c : CallTree) (leftoverGas : Nat) (ret : List Nat)
    (err : Option String) : CallTree :=
  match c.current with
  | none => c
  | some cur =>
      { c with
        lookup := fun i =>
          if i = cur then
            (c.lookup cur).map
              (fun n => { n with remainingGas := leftoverGas, ret := ret, err := err })
          else c.lookup i,
        current := (c.lookup cur).bind (fun n => n.parent) }

/-! ## Tracer (`vm/tracer.go` lines 500-566) -/

/-- `Tracer` (`vm/tracer.go` lines 500-504). -/
structure Tracer where
  states : StateChanges
  callTree : CallTree

/-- `NewTracer` (`vm/tracer.go` lines 506-512). -/
def NewTracer : Tracer := { states := NewStateChanges, callTree := NewCallTree }

/-- `Tracer.CurrentCallIndex` (`vm/tracer.go` lines 560-566): 0 when the
cursor is nil, otherwise the current call's `Index` (read through the
cursor pointer, here the heap). -/
def Tracer.CurrentCallIndex (t : Tracer) : Nat :=
  match t.callTree.current with
  | none => 0
  | some cur =>
      match t.callTree.lookup cur with
      | some n => n.index
      | none => 0

/-- `Tracer.SaveRawStateChange` (`vm/tracer.go` lines 519-522). -/
def Tracer.SaveRawStateChange (t : Tracer) (account slot val : Nat) : Tracer :=
  { t with states := t.states.saveRawStateChange account slot t.CurrentCallIndex val }

/-- `Tracer.SaveStateChange` (`vm/tracer.go` lines 524-527). -/
def Tracer.SaveStateChange (t : Tracer) (account self : Nat) (offset : Option Nat)
    (typeId : Nat) (newVal : List Nat) : Except String Tracer :=
  (t.states.saveChange account self offset typeId t.CurrentCallIndex newVal).map
    (fun s => { t with states := s })

/-- `Tracer.SaveStateKey` (`vm/tracer.go` lines 529-532). -/
def Tracer.SaveStateKey (t : Tracer) (account : Nat) (parent : Option Nat) (self : Nat)
    (offset : Option Nat) (typeId parentTypeId : Nat) (index : List Nat) :
    Except String Tracer :=
  (t.states.saveKey account parent self offset typeId parentTypeId index).map
    (fun s => { t with states := s })

/-- `Tracer.SaveCall` / `Tracer.ExitCall` (`vm/tracer.go` lines 534-542). -/
def Tracer.SaveCall (t : Tracer) (fromAddr : Nat) (toAddr : Option Nat) (data : List Nat)
    (value gas : Nat) : Tracer :=
  { t with callTree := t.callTree.add fromAddr toAddr data value gas }

def Tracer.ExitCall (t : Tracer) (leftoverGas : Nat) (ret : List Nat)
    (err : Option String) : Tracer :=
  { t with callTree := t.callTree.exit leftoverGas ret err }

/-- The `StateDB` balance view consumed by `TransferWithRecord`. -/
def StateDB : Type := Nat → Nat

/-- Modelled from the spec: the transfer function the orchestrator passes to
`TransferWithRecord` is go-ethereum's `core.Transfer`, outside this
repository; per §4.9 of the specification it subtracts `amount` from the
sender's balance and adds it to the recipient's. -/
def Transfer (db : StateDB) (fromA toA amount : Nat) : StateDB :=
  let db1 : StateDB := fun a => if a = fromA then db fromA - amount else db a
  fun a => if a = toA then db1 toA + amount else db1 a

/-- `Tracer.TransferWithRecord` (`vm/tracer.go` lines 549-558): journal both
balances, run the transfer, journal both balances again, all under the
current call index. -/
def Tracer.TransferWithRecord (t : Tracer) (db : StateDB) (fromA toA amount : Nat)
    (transfer : StateDB → Nat → Nat → Nat → StateDB) : Tracer × StateDB :=
  let callIdx := t.CurrentCallIndex
  let s1 := t.states.saveBalance fromA (db fromA) callIdx
  let s2 := s1.saveBalance toA (db toA) callIdx
  let db' := transfer db fromA toA amount
  let s3 := s2.saveBalance fromA (db' fromA) callIdx
  let s4 := s3.saveBalance toA (db' toA) callIdx
  ({ t with states := s4 }, db')

/-! ## Operation sequences over the tracer state and the call tree -/

/-- A `saveKey` or `saveChange` request, as issued by the journal opcodes. -/
inductive TracerOp where
  | skey (account : Nat) (parent : Option Nat) (self : Nat) (offset : Option Nat)
      (typeId parentTypeId : Nat) (index : List Nat)
  | schange (account self : Nat) (offset : Option Nat) (typeId callIdx : Nat)
      (newVal : List Nat)

/-- Execute one operation; a failing operation leaves the state unchanged
(the error is surfaced to the interpreter and the tracer state is not
touched). -/
def execOp (s : StateChanges) : TracerOp → StateChanges
  | .skey a p self off t pt idx =>
      match s.saveKey a p self off t pt idx with
      | .ok s' => s'
      | .error _ => s
  | .schange a self off t ci v =>
      match s.saveChange a self off t ci v with
      | .ok s' => s'
      | .error _ => s

def runOps (ops : List TracerOp) : StateChanges := ops.foldl execOp NewStateChanges

/-- Run tracer operations from a given state. -/
def runOpsFrom (s : StateChanges) (ops : List TracerOp) : StateChanges :=
  ops.foldl execOp s

/-- The `(slot, offset)` coordinate a `saveKey` request registers under;
`none` for `saveChange` requests and for requests that fail the offset
guard (those leave the state unchanged). -/
def TracerOp.keyCoord : TracerOp → Option (Nat × Nat)
  | .skey _ _ self off _ _ _ =>
      match checkOffset off with
      | some o => some (self, o)
      | none => none
  | .schange _ _ _ _ _ _ => none

/-- The `(slot, offset)` coordinates of the effective `saveKey` requests in
a sequence. -/
def keyCoords (ops : List TracerOp) : List (Nat × Nat) :=
  ops.filterMap TracerOp.keyCoord

/-- A node reachable from `account`'s root by a non-empty path of
`childrenIndex` labels — the label-path reachability of the claim. -/
inductive LabelReach (s : StateChanges) (account : Nat) : Nat → Prop
  | root (rid : Nat) (rk : StorageKey) (lab : List Nat) (cid : Nat) :
      s.roots account = some rid → s.nodes rid = some rk →
      rk.childrenIndex lab = some cid → LabelReach s account cid
  | step (pid : Nat) (pk : StorageKey) (lab : List Nat) (cid : Nat) :
      LabelReach s account pid → s.nodes pid = some pk →
      pk.childrenIndex lab = some cid → LabelReach s account cid

/-- Invariant carried through `saveKey`/`saveChange` sequences with
pairwise-distinct key coordinates: `used` lists the coordinates consumed so
far and `owner` assigns each tree node the account whose tree it lives in.
Index cells record nodes with matching coordinates and owner; occupied
index and children cells only exist at used coordinates; every
`childrenIndex` edge leaves an owned node and its target is registered in
the owner's flat index under the target's own coordinates. -/
structure KeyInv (s : StateChanges) (used : List (Nat × Nat))
    (owner : Nat → Option Nat) : Prop where
  hyg : ∀ id, s.nextId ≤ id → s.nodes id = none
  rootsAlloc : ∀ a rid, s.roots a = some rid → (s.nodes rid).isSome = true
  rootOwn : ∀ a rid, s.roots a = some rid → owner rid = some a
  idxNode : ∀ a sl o t id, s.index a sl o t = some id →
      ∃ n, s.nodes id = some n ∧ n.slot = sl ∧ n.offset = o ∧ n.typeId = t
  idxOwn : ∀ a sl o t id, s.index a sl o t = some id → owner id = some a
  idxDom : ∀ a sl o t, (s.index a sl o t).isSome = true → (sl, o) ∈ used
  childDom : ∀ id n sl o, s.nodes id = some n → (n.children sl o).isSome = true →
      (sl, o) ∈ used
  edgeIdx : ∀ id n lab cid, s.nodes id = some n → n.childrenIndex lab = some cid →
      ∃ a cn, owner id = some a ∧ s.nodes cid = some cn ∧
        s.index a cn.slot cn.offset cn.typeId = some cid

/-- A call-tree operation. -/
inductive CallOp where
  | add (fromAddr : Nat) (toAddr : Option Nat) (data : List Nat) (value gas : Nat)
  | exit (leftoverGas : Nat) (ret : List Nat) (err : Option String)

def execCallOp (c : CallTree) : CallOp → CallTree
  | .add f t d v g => c.add f t d v g
  | .exit g r e => c.exit g r e

def runCallOps (ops : List CallOp) : CallTree := ops.foldl execCallOp NewCallTree

/-- `StateChanges.Slot` / `StorageChanges.Changes` read-back: the list of
values recorded under `callIdx` on the node indexed by
`(account, slot, offset, typeId)` (`vm/tracer.go` lines 333-354, 42-45). -/
def StateChanges.slotChanges (s : StateChanges) (account slot offset typeId callIdx : Nat) :
    List (List Nat) :=
  match s.findKey account slot offset typeId with
  | none => []
  | some id =>
      match s.nodes id with
      | some n =>
          match n.changes with
          | some c => c callIdx
          | none => []
      | none => []

/-! ## Journal opcodes (`vm/constants.go` lines 938-1040)

The handlers receive the contract address and the `StateDB.GetState` view
(`storage account slot` is the 32-byte word as a value); the stack words the
Go code pops are explicit arguments, top of stack first. -/

/-- `extractStorageLen` (closure in `opReferenceChangeJournal`,
`vm/constants.go` lines 940-964): decode a solidity string/bytes length
header from the slot word.  `length = word / 2`, masked with `0x7f` when the
low bit (out-of-place flag) is clear; the flag must disagree with
`length < 32`. -/
def extractStorageLen (rawData : Nat) : Except String Nat :=
  let dataLen := rawData
  let outOfPlaceEncoding := dataLen % 2
  let length :=
    if outOfPlaceEncoding = 0 then dataLen / 2 % 128 else dataLen / 2
  let isLess : Nat := if length < 32 then 1 else 0
  if outOfPlaceEncoding = isLess then .error "storage encoding error"
  else if W64 ≤ length then .error "storage too large to load"
  else .ok length

/-- `unmask` closure (`vm/constants.go` lines 966-971): clear the low byte
of the word and return its minimal big-endian bytes (`uint256.Bytes()`). -/
def unmask (rawData : Nat) : List Nat := natToBytes (rawData / 256 * 256)

/-- `u64Ceiling` closure (`vm/constants.go` lines 973-975). -/
def u64Ceiling (nom denom : Nat) : Nat := (nom + denom - 1) / denom

/-- `opReferenceChangeJournal` (`vm/constants.go` lines 938-1016), with the
keccak hasher a parameter.  Stack arguments: `storageSlot`, then `typeId`.
For the out-of-place form, each loop iteration first advances
`referenceSlot` with `referenceSlot.Add(referenceSlot, one)` and only then
reads, so iteration `i` reads the word at `keccak(slot bytes) + i + 1`
modulo `2 ^ 256`.  The in-place branch slices `unmask(raw)[:length]`, which
panics (modeled as `none`) when the minimal byte string is shorter than
`length`. -/
def opReferenceChangeJournal (keccak : List Nat → Nat) (t : Tracer)
    (storage : Nat → Nat → Nat) (contract : Nat) (storageSlot typeId : Nat) :
    Option (Except String Tracer) :=
  let rawState := storage contract storageSlot
  match extractStorageLen rawState with
  | .error e => some (.error e)
  | .ok length =>
      if length < 32 then
        if length ≤ (unmask rawState).length then
          some (t.SaveStateChange contract storageSlot none typeId
            ((unmask rawState).take length))
        else none
      else
        let referenceSlot := keccak (natToBytes storageSlot) % W256
        let stateBytes :=
          (List.range (u64Ceiling length 32)).flatMap
            (fun i => natToBytes32 (storage contract ((referenceSlot + i + 1) % W256)))
        some (t.SaveStateChange contract storageSlot none typeId stateBytes)

/-- `opValueChangeJournal` (`vm/constants.go` lines 1018-1040).  Stack
arguments: `storageSlot`, `offset`, `typeSize`, `typeId`.  The guard
`31 < offset` subsumes the uint64-overflow check, likewise `32 < typeSize`.
`start` and `end` are computed in Go uint64 arithmetic, which wraps on
underflow; a slice access `newVal[start:end]` with `start > end` or
`end > 32` panics in Go, modeled as `none`. -/
def opValueChangeJournal (t : Tracer) (storage : Nat → Nat → Nat) (contract : Nat)
    (storageSlot offset typeSize typeId : Nat) : Option (Except String Tracer) :=
  if 31 < offset then some (.error "offset out of range")
  else if 32 < typeSize then some (.error "type size out of range")
  else
    let newVal := natToBytes32 (storage contract storageSlot)
    let start := u64sub (u64sub 32 offset) typeSize
    let stop := u64sub 32 offset
    if start ≤ stop ∧ stop ≤ 32 then
      some (t.SaveStateChange contract storageSlot (some offset) typeId
        ((newVal.take stop).drop start))
    else none

/-! ## Specification-side window definitions and test fixtures -/

/-- The `typeSize` bytes at byte position `offset` counted from the
least-significant (right) end of a big-endian word, kept in word order. -/
def lsbWindow (word : List Nat) (offset typeSize : Nat) : List Nat :=
  (((word.reverse).drop offset).take typeSize).reverse

/-- The `typeSize` bytes at byte position `offset` counted from the
most-significant (left) end of a big-endian word — the window named by
claim C2 as stated. -/
def msbWindow (word : List Nat) (offset typeSize : Nat) : List Nat :=
  (word.drop offset).take typeSize

/-- The effect of one coalescing append on the per-call-index list it
touches. -/
def recordValue (l : List (List Nat)) (v : List Nat) : List (List Nat) :=
  if l.getLast? = some v then l else l ++ [v]

/-- Heap hygiene for the account roots: ids at or above the allocation
counter are unallocated, roots point at allocated nodes, and two accounts
never share a root node.  These hold in every state the tracer builds. -/
structure RootsWF (s : StateChanges) : Prop where
  hyg : ∀ id, s.nextId ≤ id → s.nodes id = none
  rootsAlloc : ∀ x rid, s.roots x = some rid → (s.nodes rid).isSome = true
  rootsInj : ∀ x y r, s.roots x = some r → s.roots y = some r → x = y

/-- Run call-tree operations from a given tree. -/
def runCallOpsFrom (c : CallTree) (ops : List CallOp) : CallTree :=
  ops.foldl execCallOp c

/-- A tracer whose state-change tree has the storage key
`(account 1, slot 5, offset 0, typeId 9)` registered, used as the concrete
fixture for the journal-opcode claims. -/
def journalTestTracer : Tracer :=
  { states := runOps [.skey 1 none 5 (some 0) 9 0 []], callTree := NewCallTree }

/-- Concrete storage for the RJOURNAL fixture: slot 5 holds the long-form
header word 65 (length 32, out-of-place flag set); the word at 100 (the
fixture keccak image of slot 5) is 3 and the word at 101 is 7. -/
def c3Storage : Nat → Nat → Nat := fun _ sl =>
  if sl = 5 then 65 else if sl = 100 then 3 else if sl = 101 then 7 else 0

/-- Fixture hash function: every byte string hashes to 100. -/
def c3Keccak : List Nat → Nat := fun _ => 100

/-! ## Call-tree traversal and chain structure (for the C6 invariants) -/

/-- The children list stored at `id` in a call-tree lookup (empty when the
id is unallocated). -/
def childrenAt (lk : Nat → Option Call) (id : Nat) : List Nat :=
  match lk id with
  | some n => n.children
  | none => []

/-- Pre-order traversal of the call tree from `id`: the call itself, then
its children in list order, recursively; `fuel` bounds the depth (`count`
always suffices on trees the operations build). -/
def preorder (lk : Nat → Option Call) : Nat → Nat → List Nat
  | 0, _ => []
  | fuel + 1, id => id :: (childrenAt lk id).flatMap (preorder lk fuel)

/-- The sequence never performs an `add` while the tree is non-empty with a
nil cursor — i.e. no call is entered after the root call has exited, so a
single root tree is built. -/
def NoOrphan : CallTree → List CallOp → Prop
  | _, [] => True
  | c, CallOp.add f t d v g :: rest =>
      (c.count = 0 ∨ c.current ≠ none) ∧ NoOrphan (c.add f t d v g) rest
  | c, CallOp.exit g r e :: rest => NoOrphan (c.exit g r e) rest

/-- Structural well-formedness of a call tree; holds for every tree built
by `add`/`exit` from the empty tree. -/
structure CallTreeWF (c : CallTree) : Prop where
  hyg : ∀ i, c.count ≤ i → c.lookup i = none
  dom : ∀ i, i < c.count → (c.lookup i).isSome = true
  idx : ∀ i n, c.lookup i = some n → n.index = i
  par : ∀ i n p, c.lookup i = some n → n.parent = some p →
    p < i ∧ ∃ pn, c.lookup p = some pn ∧ i ∈ pn.children
  childOrd : ∀ i n, c.lookup i = some n → List.Chain' (· < ·) n.children
  childBound : ∀ i n, c.lookup i = some n → ∀ j ∈ n.children, i < j ∧ j < c.count
  curOk : ∀ cur, c.current = some cur → cur < c.count
  rootOk : c.root = (if c.count = 0 then none else some 0)

/-- The open-call chain, most recent call first: each entry is stored with
its successor (in the list) as parent and is the last element of the
successor's children. -/
def StChainR (c : CallTree) : List Nat → Prop
  | [] => True
  | [_] => True
  | a :: b :: rest =>
      (∃ n, c.lookup a = some n ∧ n.parent = some b) ∧
      (childrenAt c.lookup b).getLast? = some a ∧
      StChainR c (b :: rest)

/-- Invariant tying a call tree to its open-call chain `st` (cursor first,
root call last): chain members' pre-order traversals cover exactly the ids
from the member up to `count`, and the whole tree's pre-order from call 0
is the gap-free range `[0, count)`. -/
structure ChainInv (c : CallTree) (st : List Nat) : Prop where
  wf : CallTreeWF c
  cur : c.current = st.head?
  mem : ∀ j ∈ st, j < c.count
  sorted : List.Chain' (· > ·) st
  last0 : ∀ j, st.getLast? = some j → j = 0
  link : StChainR c st
  pre : ∀ j ∈ st, ∀ fuel, c.count - j ≤ fuel →
    preorder c.lookup fuel j = List.range' j (c.count - j)
  root0 : 0 < c.count → ∀ fuel, c.count ≤ fuel →
    preorder c.lookup fuel 0 = List.range' 0 c.count
  par0 : ∀ n, c.lookup 0 = some n → n.parent = none

/-! ## Claim C4 : adjacent-equal coalescing in `StorageChanges.append` -/

theorem append_preserves_chain (c : StorageChanges) (i j : Nat) (v : List Nat)
    (h : List.Chain' Ne (c i)) : List.Chain' Ne ((c.append j v) i) := by
  unfold StorageChanges.append
  by_cases hlast : (c j).getLast? = some v
  · rw [if_pos hlast]; exact h
  · rw [if_neg hlast]
    show List.Chain' Ne (if i = j then c j ++ [v] else c i)
    by_cases hij : i = j
    · subst hij
      rw [if_pos rfl, List.chain'_append]
      refine ⟨h, List.chain'_singleton v, ?_⟩
      intro x hx y hy
      simp only [List.head?_cons, Option.mem_def, Option.some.injEq] at hy
      subst hy
      intro hxv
      subst hxv
      exact hlast hx
    · rw [if_neg hij]; exact h

theorem runAppends_chain (ops : List (Nat × List Nat)) (start : StorageChanges)
    (h : ∀ i, List.Chain' Ne (start i)) (i : Nat) :
    List.Chain' Ne (runAppends start ops i) := by
  induction ops generalizing start with
  | nil => exact h i
  | cons op rest ih =>
      exact ih (start.append op.1 op.2)
        (fun k => append_preserves_chain start k op.1 op.2 (h k))

/-- Claim C4: for every `StorageChanges` record produced by a sequence of
`append` operations, no per-call-index list contains two adjacent equal
values; appending a value equal to the last one under the same call index is
a no-op (the whole record is unchanged); and two consecutive writes of the
same value under two different call indices both produce an entry (one in
each index's list), whereas under a single call index they coalesce to one. -/
theorem c4_append_coalescing (ops : List (Nat × List Nat)) (i j : Nat)
    (v : List Nat) (hij : i ≠ j) :
    List.Chain' Ne (runAppends newStorageChange ops i) ∧
    ((runAppends newStorageChange ops i).getLast? = some v →
      (runAppends newStorageChange ops).append i v = runAppends newStorageChange ops) ∧
    ((runAppends newStorageChange ops i).getLast? ≠ some v →
      ((runAppends newStorageChange ops).append i v) i
        = runAppends newStorageChange ops i ++ [v]) ∧
    (runAppends newStorageChange [(i, v), (j, v)] i = [v] ∧
      runAppends newStorageChange [(i, v), (j, v)] j = [v]) ∧
    runAppends newStorageChange [(i, v), (i, v)] i = [v] := by
  refine ⟨runAppends_chain ops newStorageChange (fun _ => List.chain'_nil) i, ?_, ?_, ?_, ?_⟩
  · intro hlast
    unfold StorageChanges.append
    simp [hlast]
  · intro hlast
    unfold StorageChanges.append
    simp [hlast]
  · have hji : j ≠ i := Ne.symm hij
    constructor
    · simp [runAppends, StorageChanges.append, newStorageChange, hij, hji]
    · simp [runAppends, StorageChanges.append, newStorageChange, hij, hji]
  · simp [runAppends, StorageChanges.append, newStorageChange]

/-- Witness for C4 at concrete inputs. -/
theorem c4_append_coalescing_witness :
    (0 : Nat) ≠ 1 ∧
    List.Chain' Ne (runAppends newStorageChange [(0, [7]), (0, [8])] 0) := by
  have h := c4_append_coalescing [(0, [7]), (0, [8])] 0 1 [9] (by decide)
  exact ⟨by decide, h.1⟩

/-! ## Claim C8 : shifts by ≥ 256 -/

theorem srsh_ge256 (v s : Nat) (hv : v < W256) (hs : 256 ≤ s) :
    srsh v s = if v < 2 ^ 255 then 0 else W256 - 1 := by
  unfold srsh
  have hWs : W256 ≤ 2 ^ s := by
    simpa [W256] using Nat.pow_le_pow_right (show 1 ≤ 2 by norm_num) hs
  by_cases h : v < 2 ^ 255
  · rw [if_pos h, if_pos h]
    exact Nat.div_eq_of_lt (lt_of_lt_of_le hv hWs)
  · rw [if_neg h, if_neg h]
    have h1 : W256 - 1 - v < 2 ^ s := by
      have h0 : 0 < W256 := by norm_num [W256]
      omega
    rw [Nat.div_eq_of_lt h1, Nat.sub_zero]

/-- Claim C8: for every 256-bit value `v` and shift `s ≥ 256` (including the
boundary `s = 256`): `SHL` and `SHR` push 0, and `SAR` pushes 0 when `v` is
non-negative in two's complement (`v < 2 ^ 255`) and all ones (`2 ^ 256 - 1`)
when `v` is negative. -/
theorem c8_shift_ge256 (s v : Nat) (rest : List Nat) (hv : v < W256)
    (hs : 256 ≤ s) :
    opSHL (s :: v :: rest) = some (0 :: rest) ∧
    opSHR (s :: v :: rest) = some (0 :: rest) ∧
    (v < 2 ^ 255 → opSAR (s :: v :: rest) = some (0 :: rest)) ∧
    (2 ^ 255 ≤ v → opSAR (s :: v :: rest) = some ((W256 - 1) :: rest)) := by
  have hns : ¬ s < 256 := by omega
  refine ⟨by simp [opSHL, hns], by simp [opSHR, hns], ?_, ?_⟩
  · intro hpos
    rcases Nat.lt_or_ge 256 s with hgt | hle
    · have hsgn : 0 ≤ sign256 v := by
        unfold sign256
        by_cases h0 : v = 0
        · rw [if_pos h0]
        · rw [if_neg h0, if_neg (not_le.mpr hpos)]; norm_num
      simp only [opSAR]
      rw [if_pos hgt, if_pos hsgn]
    · have hseq : s = 256 := by omega
      subst hseq
      simp only [opSAR]
      rw [if_neg (lt_irrefl 256), srsh_ge256 v 256 hv (le_refl _), if_pos hpos]
  · intro hneg
    rcases Nat.lt_or_ge 256 s with hgt | hle
    · have h0 : v ≠ 0 := by
        intro h; subst h
        exact absurd hneg (by norm_num)
      have hsgn : ¬ 0 ≤ sign256 v := by
        unfold sign256
        rw [if_neg h0, if_pos hneg]; norm_num
      simp only [opSAR]
      rw [if_pos hgt, if_neg hsgn]
    · have hseq : s = 256 := by omega
      subst hseq
      simp only [opSAR]
      rw [if_neg (lt_irrefl 256), srsh_ge256 v 256 hv (le_refl _),
        if_neg (not_lt.mpr hneg)]

/-- Witness for C8 at `s = 256`, `v = 2 ^ 255` (a negative word). -/
theorem c8_shift_ge256_witness :
    (2 ^ 255 : Nat) < W256 ∧ (256 : Nat) ≤ 256 ∧
    opSAR (256 :: 2 ^ 255 :: []) = some ((W256 - 1) :: []) := by
  have h := c8_shift_ge256 256 (2 ^ 255) [] (by norm_num [W256]) (le_refl _)
  exact ⟨by norm_num [W256], le_refl _, h.2.2.2 (le_refl _)⟩

/-! ## Helper lemmas -/

theorem u64sub_small (a b : Nat) (hba : b ≤ a) (ha : a < W64) : u64sub a b = a - b := by
  have hW : W64 = 18446744073709551616 := by norm_num [W64]
  unfold u64sub
  rw [hW] at ha ⊢
  omega

theorem natToBytesAux_fuel (f : Nat) : ∀ f' n, n ≤ f → n ≤ f' →
    natToBytesAux f n = natToBytesAux f' n := by
  induction f with
  | zero =>
      intro f' n hf hf'
      have h0 : n = 0 := Nat.le_zero.mp hf
      subst h0
      cases f' with
      | zero => rfl
      | succ f'' => simp [natToBytesAux]
  | succ f ih =>
      intro f' n hf hf'
      by_cases h0 : n = 0
      · subst h0
        cases f' with
        | zero => simp [natToBytesAux]
        | succ f'' => simp [natToBytesAux]
      · have hn : 1 ≤ n := Nat.one_le_iff_ne_zero.mpr h0
        have hdiv : n / 256 < n := Nat.div_lt_self hn (by norm_num)
        cases f' with
        | zero => omega
        | succ f'' =>
            simp only [natToBytesAux, h0, if_false]
            rw [ih f'' (n / 256) (by omega) (by omega)]

theorem natToBytes_ne_zero (n : Nat) (h : n ≠ 0) :
    natToBytes n = natToBytes (n / 256) ++ [n % 256] := by
  have hn : 1 ≤ n := Nat.one_le_iff_ne_zero.mpr h
  cases n with
  | zero => omega
  | succ m =>
      show natToBytesAux (m + 1) (m + 1) = _
      simp only [natToBytesAux, h, if_false]
      unfold natToBytes
      rw [natToBytesAux_fuel m ((m + 1) / 256) ((m + 1) / 256)
        (by omega) (le_refl _)]

theorem natToBytes_injective : ∀ n m : Nat, natToBytes n = natToBytes m → n = m := by
  intro n
  induction n using Nat.strong_induction_on with
  | _ n ih =>
      intro m h
      by_cases hn : n = 0
      · subst hn
        by_cases hm : m = 0
        · omega
        · rw [natToBytes_ne_zero m hm] at h
          exact absurd h.symm (by simp [natToBytes, natToBytesAux])
      · by_cases hm : m = 0
        · subst hm
          rw [natToBytes_ne_zero n hn] at h
          exact absurd h (by simp [natToBytes, natToBytesAux])
        · rw [natToBytes_ne_zero n hn, natToBytes_ne_zero m hm] at h
          have hinj := List.append_inj' h (by simp)
          have hmod : n % 256 = m % 256 := by
            have := hinj.2
            simpa using this
          have hdivlt : n / 256 < n :=
            Nat.div_lt_self (Nat.one_le_iff_ne_zero.mpr hn) (by norm_num)
          have hdiv : n / 256 = m / 256 := ih (n / 256) hdivlt (m / 256) hinj.1
          omega

theorem natToBytes32_length (n : Nat) : (natToBytes32 n).length = 32 := by
  simp [natToBytes32]

/-- The per-index effect of `StorageChanges.append`. -/
theorem append_at_self (c : StorageChanges) (i : Nat) (v : List Nat) :
    (c.append i v) i = recordValue (c i) v := by
  unfold StorageChanges.append recordValue
  by_cases h : (c i).getLast? = some v
  · rw [if_pos h, if_pos h]
  · rw [if_neg h, if_neg h]
    simp

theorem append_at_other (c : StorageChanges) (i j : Nat) (v : List Nat) (h : j ≠ i) :
    (c.append i v) j = c j := by
  unfold StorageChanges.append
  by_cases hl : (c i).getLast? = some v
  · rw [if_pos hl]
  · rw [if_neg hl]
    simp [h]

theorem recordValue_nil (v : List Nat) : recordValue [] v = [v] := by
  simp [recordValue]

theorem recordValue_single (u v : List Nat) (h : u ≠ v) :
    recordValue [u] v = [u, v] := by
  simp [recordValue, h]

/-- `lsbWindow` coincides with the Go slice `word[32-offset-typeSize :
32-offset]` on 32-byte words with `offset + typeSize ≤ 32`. -/
theorem lsbWindow_eq_slice (word : List Nat) (offset typeSize : Nat)
    (hlen : word.length = 32) (hsum : offset + typeSize ≤ 32) :
    lsbWindow word offset typeSize
      = (word.take (32 - offset)).drop (32 - offset - typeSize) := by
  unfold lsbWindow
  apply List.ext_getElem
  · simp [hlen]
    omega
  · intro i h1 h2
    simp only [List.getElem_reverse, List.getElem_take, List.getElem_drop]
    congr 1
    simp only [List.length_reverse, List.length_take, List.length_drop, hlen] at h1 h2 ⊢
    omega

/-! ## Claim C9 : the range guards do not bound the slice access -/

/-- Claim C9 (refuted — code bug): at `offset = 31`, `typeSize = 32` both
range guards of `opValueChangeJournal` pass (neither `31 < 31` nor
`32 < 32`), yet `start = 32 - offset - typeSize` wraps around in uint64
arithmetic, the byte window does not lie within the 32-byte word, and the
Go slice access `newVal[start:end]` panics (the `none` result): the guards
alone do not make the slice access in bounds, so the guards' error branch
is not the only way inputs with `offset + typeSize > 32` are rejected. -/
theorem c9_guards_allow_out_of_bounds_slice :
    (¬ 31 < (31 : Nat)) ∧ (¬ 32 < (32 : Nat)) ∧
    u64sub 32 31 < u64sub (u64sub 32 31) 32 ∧
    opValueChangeJournal NewTracer (fun _ _ => 0) 1 5 31 32 7 = none :=
  ⟨by decide, by decide, by decide, rfl⟩

/-! ## Claim C2 : VJOURNAL records a window of the slot word -/

/-- Claim C2 (amended): for every execution of the VJOURNAL opcode with
`offset ≤ 31`, `typeSize ≤ 32` and `offset + typeSize ≤ 32`, on a slot
whose storage key is registered in the tracer index, the handler reads the
current slot word and records, under `(slot, offset, typeId)` at the
current call index, the `typeSize` bytes at byte position `offset` counted
from the least-significant (LSB) end of the 32-byte word.  (The original
MSB-end reading is refuted by `c2_vjournal_msb_counterexample`.) -/
theorem c2_vjournal_records_lsb_window (t : Tracer) (storage : Nat → Nat → Nat)
    (contract slot offset typeSize typeId id : Nat) (n : StorageKey)
    (hoff : offset ≤ 31) (hts : typeSize ≤ 32) (hsum : offset + typeSize ≤ 32)
    (hroot : (t.states.roots contract).isSome = true)
    (hfind : t.states.findKey contract slot offset typeId = some id)
    (hn : t.states.nodes id = some n) :
    ∃ t', opValueChangeJournal t storage contract slot offset typeSize typeId
            = some (.ok t') ∧
      t'.states.slotChanges contract slot offset typeId t.CurrentCallIndex
        = recordValue
            (t.states.slotChanges contract slot offset typeId t.CurrentCallIndex)
            (lsbWindow (natToBytes32 (storage contract slot)) offset typeSize) := by
  have hW : (32 : Nat) < W64 := by norm_num [W64]
  have h1 : u64sub 32 offset = 32 - offset := u64sub_small 32 offset (by omega) hW
  have h2 : u64sub (32 - offset) typeSize = 32 - offset - typeSize :=
    u64sub_small (32 - offset) typeSize (by omega) (by omega)
  have hnoff : ¬ 31 < offset := by omega
  have hnts : ¬ 32 < typeSize := by omega
  have hbounds : 32 - offset - typeSize ≤ 32 - offset ∧ 32 - offset ≤ 32 := by omega
  obtain ⟨r, hr⟩ := Option.isSome_iff_exists.mp hroot
  rw [lsbWindow_eq_slice _ _ _ (natToBytes32_length _) hsum]
  simp only [opValueChangeJournal, hnoff, hnts, if_false, h1, h2, hbounds, if_true,
    Tracer.SaveStateChange, StateChanges.saveChange, checkOffset, hr, hfind, hn,
    Except.map]
  refine ⟨_, rfl, ?_⟩
  have hfind' : t.states.index contract slot offset typeId = some id := hfind
  cases hc : n.changes with
  | none =>
      simp [StateChanges.slotChanges, StateChanges.findKey, StateChanges.writeNode,
        StorageKey.JournalChanges, hc, hfind', hn, append_at_self, newStorageChange]
  | some c =>
      simp [StateChanges.slotChanges, StateChanges.findKey, StateChanges.writeNode,
        StorageKey.JournalChanges, hc, hfind', hn, append_at_self]

/-- Claim C2 as stated is refuted: with slot word value 5 (bytes 0x00…05),
`offset = 0`, `typeSize = 1`, the handler records the least-significant
byte `[5]`, which differs from `[0]`, the byte at position 0 from the MSB
end. -/
theorem c2_vjournal_msb_counterexample :
    Option.map (Except.map (fun t' => t'.states.slotChanges 1 5 0 9 0))
        (opValueChangeJournal journalTestTracer (fun _ sl => if sl = 5 then 5 else 0)
          1 5 0 1 9)
      = some (.ok [[5]]) ∧
    msbWindow (natToBytes32 5) 0 1 = [0] ∧
    ([[5]] : List (List Nat)) ≠ [[0]] :=
  ⟨rfl, by decide, by decide⟩

/-- Witness for C2 at the fixture tracer and the constant-3 storage. -/
theorem c2_vjournal_records_lsb_window_witness :
    journalTestTracer.states.findKey 1 5 0 9 = some 1 ∧
    ∃ t', opValueChangeJournal journalTestTracer (fun _ _ => 3) 1 5 0 1 9
            = some (.ok t') ∧
      t'.states.slotChanges 1 5 0 9 journalTestTracer.CurrentCallIndex
        = recordValue
            (journalTestTracer.states.slotChanges 1 5 0 9
              journalTestTracer.CurrentCallIndex)
            (lsbWindow (natToBytes32 3) 0 1) :=
  ⟨rfl, c2_vjournal_records_lsb_window journalTestTracer (fun _ _ => 3) 1 5 0 1 9 1
    (NewBranchKey 5 0 9 []) (by decide) (by decide) (by decide) rfl rfl rfl⟩

/-! ## Claim C3 : RJOURNAL long-form reads -/

/-- Claim C3 (code bug): RJOURNAL on slot 5 whose stored word 65 decodes as
a long-form string of length L = 32 (one extension word), with
keccak(slot bytes) = 100, records the word read at slot 101 = keccak + 1
(value 7), not the word at keccak = 100 (value 3): the Go loop advances
`referenceSlot` before its first read, so it reads keccak+1 … keccak+⌈L/32⌉
instead of keccak … keccak+⌈L/32⌉−1. -/
theorem c3_rjournal_reads_from_keccak_plus_one :
    extractStorageLen (c3Storage 1 5) = .ok 32 ∧
    Option.map (Except.map (fun t' => t'.states.slotChanges 1 5 0 9 0))
        (opReferenceChangeJournal c3Keccak journalTestTracer c3Storage 1 5 9)
      = some (.ok [natToBytes32 7]) ∧
    c3Storage 1 (c3Keccak (natToBytes 5) % W256) = 3 ∧
    natToBytes32 7 ≠ natToBytes32 3 :=
  ⟨rfl, rfl, rfl, by decide⟩

/-! ## Balance journaling (`saveBalance`) -/

theorem rootsWF_new : RootsWF NewStateChanges := by
  refine ⟨?_, ?_, ?_⟩
  · intro id h
    rfl
  · intro x rid h
    exact absurd h (by simp [NewStateChanges])
  · intro x y r hx hy
    exact absurd hx (by simp [NewStateChanges])

/-- The full effect of one `saveBalance` on a well-formed state: it appends
(coalescing) the balance bytes to the account's root record under `ci` and
changes nothing else, preserving well-formedness. -/
theorem saveBalance_spec (s : StateChanges) (wf : RootsWF s) (x bal ci : Nat) :
    RootsWF (s.saveBalance x bal ci) ∧
    (s.saveBalance x bal ci).balanceChanges x ci
      = recordValue (s.balanceChanges x ci) (natToBytes bal) ∧
    (∀ y ci', y ≠ x ∨ ci' ≠ ci →
      (s.saveBalance x bal ci).balanceChanges y ci' = s.balanceChanges y ci') := by
  cases hro : s.roots x with
  | some rid =>
      have hrid : (s.nodes rid).isSome = true := wf.rootsAlloc x rid hro
      obtain ⟨rk, hrk⟩ := Option.isSome_iff_exists.mp hrid
      have hridlt : rid < s.nextId := by
        by_contra hle
        rw [wf.hyg rid (by omega)] at hrk
        exact absurd hrk (by simp)
      simp only [StateChanges.saveBalance, hro, hrk, StateChanges.writeNode]
      refine ⟨⟨?_, ?_, ?_⟩, ?_, ?_⟩
      · intro id hle
        dsimp only at hle ⊢
        rw [if_neg (by omega : ¬ id = rid)]
        exact wf.hyg id hle
      · intro y r' hy
        dsimp only at hy ⊢
        by_cases hr' : r' = rid
        · subst hr'
          simp
        · rw [if_neg hr']
          exact wf.rootsAlloc y r' hy
      · intro y z r hyr hzr
        exact wf.rootsInj y z r hyr hzr
      · simp only [StateChanges.balanceChanges, hro, hrk]
        cases hc : rk.changes with
        | none =>
            simp [StorageKey.JournalChanges, hc, append_at_self, newStorageChange]
        | some c =>
            simp [StorageKey.JournalChanges, hc, append_at_self]
      · intro y ci' hy
        by_cases hyx : y = x
        · subst hyx
          have hci' : ci' ≠ ci := by tauto
          simp only [StateChanges.balanceChanges, hro, hrk]
          cases hc : rk.changes with
          | none =>
              simp [StorageKey.JournalChanges, hc, append_at_other _ ci ci' _ hci',
                newStorageChange]
          | some c =>
              simp [StorageKey.JournalChanges, hc, append_at_other _ ci ci' _ hci']
        · cases hry : s.roots y with
          | none => simp [StateChanges.balanceChanges, hry]
          | some r' =>
              have hne : ¬ r' = rid := fun he =>
                hyx (wf.rootsInj y x rid (he ▸ hry) hro)
              simp [StateChanges.balanceChanges, hry, hne]
  | none =>
      simp only [StateChanges.saveBalance, hro, StateChanges.alloc,
        StateChanges.writeNode]
      refine ⟨⟨?_, ?_, ?_⟩, ?_, ?_⟩
      · intro id hle
        dsimp only at hle ⊢
        rw [if_neg (by omega : ¬ id = s.nextId), if_neg (by omega : ¬ id = s.nextId)]
        exact wf.hyg id (by omega)
      · intro y r' hy
        dsimp only at hy ⊢
        by_cases hyx : y = x
        · subst hyx
          rw [if_pos rfl] at hy
          cases hy
          simp
        · rw [if_neg hyx] at hy
          have halloc := wf.rootsAlloc y r' hy
          have hlt : r' < s.nextId := by
            by_contra hle
            rw [wf.hyg r' (by omega)] at halloc
            exact absurd halloc (by simp)
          rw [if_neg (by omega : ¬ r' = s.nextId), if_neg (by omega : ¬ r' = s.nextId)]
          exact halloc
      · intro y z r hyr hzr
        dsimp only at hyr hzr
        by_cases hy : y = x <;> by_cases hz : z = x
        · omega
        · subst hy
          rw [if_pos rfl] at hyr
          rw [if_neg hz] at hzr
          cases hyr
          have halloc := wf.rootsAlloc z s.nextId hzr
          rw [wf.hyg s.nextId (le_refl _)] at halloc
          exact absurd halloc (by simp)
        · subst hz
          rw [if_pos rfl] at hzr
          rw [if_neg hy] at hyr
          cases hzr
          have halloc := wf.rootsAlloc y s.nextId hyr
          rw [wf.hyg s.nextId (le_refl _)] at halloc
          exact absurd halloc (by simp)
        · rw [if_neg hy] at hyr
          rw [if_neg hz] at hzr
          exact wf.rootsInj y z r hyr hzr
      · simp [StateChanges.balanceChanges, hro, StorageKey.JournalChanges, NewRootKey,
          append_at_self, newStorageChange]
      · intro y ci' hy
        by_cases hyx : y = x
        · subst hyx
          have hci' : ci' ≠ ci := by tauto
          simp [StateChanges.balanceChanges, hro, StorageKey.JournalChanges, NewRootKey,
            append_at_other _ ci ci' _ hci', newStorageChange]
        · cases hry : s.roots y with
          | none => simp [StateChanges.balanceChanges, hry, hyx]
          | some r' =>
              have halloc := wf.rootsAlloc y r' hry
              have hlt : r' < s.nextId := by
                by_contra hle
                rw [wf.hyg r' (by omega)] at halloc
                exact absurd halloc (by simp)
              have hne : ¬ r' = s.nextId := by omega
              simp [StateChanges.balanceChanges, hry, hyx, if_neg hne]

/-! ## Claim C1 : balance conservation around a transfer -/

/-- Claim C1 (amended): `TransferWithRecord(db, a, b, v, transfer)` with
`a ≠ b`, sufficient balance `v ≤ db(a)` and `v > 0`, starting from a
well-formed tracer state with no balance events yet under the current call
index for `a` and `b`, records exactly four balance events under the
current call index — `a`-before, `b`-before, `a`-after, `b`-after — with
a-after = a-before − v and b-after = b-before + v, and changes no other
balance record.  (At `v = 0` the claim as stated fails:
`c1_transfer_zero_counterexample`.) -/
theorem c1_transfer_four_events (t : Tracer) (db : StateDB) (a b amount : Nat)
    (wf : RootsWF t.states) (hab : a ≠ b) (hsuff : amount ≤ db a) (hpos : 0 < amount)
    (ha : t.states.balanceChanges a t.CurrentCallIndex = [])
    (hb : t.states.balanceChanges b t.CurrentCallIndex = []) :
    ((t.TransferWithRecord db a b amount Transfer).1.states.balanceChanges a
        t.CurrentCallIndex
      = [natToBytes (db a), natToBytes (db a - amount)]) ∧
    ((t.TransferWithRecord db a b amount Transfer).1.states.balanceChanges b
        t.CurrentCallIndex
      = [natToBytes (db b), natToBytes (db b + amount)]) ∧
    (∀ y ci', (y ≠ a ∧ y ≠ b) ∨ ci' ≠ t.CurrentCallIndex →
      (t.TransferWithRecord db a b amount Transfer).1.states.balanceChanges y ci'
        = t.states.balanceChanges y ci') := by
  have hba : b ≠ a := Ne.symm hab
  have hTa : Transfer db a b amount a = db a - amount := by
    simp [Transfer, hab]
  have hTb : Transfer db a b amount b = db b + amount := by
    simp [Transfer, hba]
  have hstep1 := saveBalance_spec t.states wf a (db a) t.CurrentCallIndex
  obtain ⟨wf1, self1, fr1⟩ := hstep1
  have hstep2 := saveBalance_spec _ wf1 b (db b) t.CurrentCallIndex
  obtain ⟨wf2, self2, fr2⟩ := hstep2
  have hstep3 := saveBalance_spec _ wf2 a (Transfer db a b amount a) t.CurrentCallIndex
  obtain ⟨wf3, self3, fr3⟩ := hstep3
  have hstep4 := saveBalance_spec _ wf3 b (Transfer db a b amount b) t.CurrentCallIndex
  obtain ⟨wf4, self4, fr4⟩ := hstep4
  have hane : natToBytes (db a) ≠ natToBytes (db a - amount) := fun he => by
    have := natToBytes_injective _ _ he
    omega
  have hbne : natToBytes (db b) ≠ natToBytes (db b + amount) := fun he => by
    have := natToBytes_injective _ _ he
    omega
  simp only [Tracer.TransferWithRecord]
  refine ⟨?_, ?_, ?_⟩
  · rw [fr4 a t.CurrentCallIndex (Or.inl hab), self3,
      fr2 a t.CurrentCallIndex (Or.inl hab), self1, ha, hTa,
      recordValue_nil, recordValue_single _ _ hane]
  · rw [self4, fr3 b t.CurrentCallIndex (Or.inl hba), self2,
      fr1 b t.CurrentCallIndex (Or.inl hba), hb, hTb,
      recordValue_nil, recordValue_single _ _ hbne]
  · intro y ci' hy
    have hy1 : y ≠ a ∨ ci' ≠ t.CurrentCallIndex := by tauto
    have hy2 : y ≠ b ∨ ci' ≠ t.CurrentCallIndex := by tauto
    rw [fr4 y ci' hy2, fr3 y ci' hy1, fr2 y ci' hy2, fr1 y ci' hy1]

/-- Claim C1 as stated is refuted at `amount = 0`: zero is a sufficient
balance for any account, the after-balances equal the before-balances, the
appends coalesce, and only two balance events are recorded (one per
account), not four. -/
theorem c1_transfer_zero_counterexample :
    ((NewTracer.TransferWithRecord (fun x => if x = 1 then 4 else 10) 1 2 0
        Transfer).1.states.balanceChanges 1 0 = [natToBytes 4]) ∧
    ((NewTracer.TransferWithRecord (fun x => if x = 1 then 4 else 10) 1 2 0
        Transfer).1.states.balanceChanges 2 0 = [natToBytes 10]) :=
  ⟨rfl, rfl⟩

/-- Witness for C1 at a concrete transfer of 3 from balance 4 to balance
10. -/
theorem c1_transfer_four_events_witness :
    (1 : Nat) ≠ 2 ∧ (3 : Nat) ≤ 4 ∧ (0 : Nat) < 3 ∧
    ((NewTracer.TransferWithRecord (fun x => if x = 1 then 4 else 10) 1 2 3
        Transfer).1.states.balanceChanges 1 NewTracer.CurrentCallIndex
      = [natToBytes 4, natToBytes 1]) := by
  have h := c1_transfer_four_events NewTracer (fun x => if x = 1 then 4 else 10) 1 2 3
    rootsWF_new (by decide) (by norm_num) (by decide) rfl rfl
  refine ⟨by decide, by norm_num, by decide, ?_⟩
  have h1 := h.1
  norm_num at h1
  exact h1

/-! ## Claim C10 : nil cursor records under the root call's index -/

/-- In any call tree whose root is the index-0 call, every `add`/`exit`
sequence preserves that the root is call 0 and that the call stored at
lookup key 0 carries index 0. -/
theorem runCallOpsFrom_root_zero (ops : List CallOp) :
    ∀ c : CallTree, c.root = some 0 → 1 ≤ c.count →
    (∀ n, c.lookup 0 = some n → n.index = 0) →
    (runCallOpsFrom c ops).root = some 0 ∧
      ∀ n, (runCallOpsFrom c ops).lookup 0 = some n → n.index = 0 := by
  induction ops with
  | nil => exact fun c h1 h2 h3 => ⟨h1, h3⟩
  | cons op rest ih =>
      intro c h1 h2 h3
      apply ih
      · cases op with
        | add f t d v g => simp [execCallOp, CallTree.add, h1]
        | exit g r e =>
            simp only [execCallOp, CallTree.exit]
            cases hc : c.current with
            | none => exact h1
            | some cur => simpa using h1
      · cases op with
        | add f t d v g =>
            simp only [execCallOp, CallTree.add]
            omega
        | exit g r e =>
            simp only [execCallOp, CallTree.exit]
            cases hc : c.current with
            | none => exact h2
            | some cur => simpa using h2
      · cases op with
        | add f t d v g =>
            intro n hn
            simp only [execCallOp, CallTree.add] at hn
            rw [if_neg (by omega : ¬ (0 : Nat) = c.count)] at hn
            cases hcur : c.current with
            | none =>
                rw [hcur] at hn
                exact h3 n hn
            | some cur =>
                rw [hcur] at hn
                simp only [] at hn
                by_cases h0c : (0 : Nat) = cur
                · rw [if_pos h0c] at hn
                  obtain ⟨p, hp, hpn⟩ := Option.map_eq_some'.mp hn
                  rw [← hpn]
                  exact h3 p (h0c ▸ hp)
                · rw [if_neg h0c] at hn
                  exact h3 n hn
        | exit g r e =>
            intro n hn
            simp only [execCallOp, CallTree.exit] at hn
            cases hcur : c.current with
            | none =>
                rw [hcur] at hn
                exact h3 n hn
            | some cur =>
                rw [hcur] at hn
                simp only [] at hn
                by_cases h0c : (0 : Nat) = cur
                · rw [if_pos h0c] at hn
                  obtain ⟨p, hp, hpn⟩ := Option.map_eq_some'.mp hn
                  rw [← hpn]
                  exact h3 p (h0c ▸ hp)
                · rw [if_neg h0c] at hn
                  exact h3 n hn

/-- Claim C10: whenever the call-tree cursor is nil, `CurrentCallIndex`
returns 0; consequently a raw state change is stored under call index 0, a
typed state change is handed to `saveChange` with call index 0, and the
four balance journals of `TransferWithRecord` all run at call index 0; and
in any call tree built by a first `add` followed by arbitrary operations
the root call is the call with index 0, so such events carry the same index
as the root call. -/
theorem c10_nil_cursor_uses_root_index (t : Tracer)
    (h : t.callTree.current = none) (account slot val self : Nat)
    (offset : Option Nat) (typeId : Nat) (newVal : List Nat)
    (db : StateDB) (a b amount : Nat)
    (f : Nat) (tto : Option Nat) (d : List Nat) (v g : Nat) (ops : List CallOp) :
    t.CurrentCallIndex = 0 ∧
    (t.SaveRawStateChange account slot val).states.raw account slot 0 = some val ∧
    t.SaveStateChange account self offset typeId newVal
      = Except.map (fun s => { t with states := s })
          (t.states.saveChange account self offset typeId 0 newVal) ∧
    (t.TransferWithRecord db a b amount Transfer).1.states
      = ((((t.states.saveBalance a (db a) 0).saveBalance b (db b) 0).saveBalance a
            (Transfer db a b amount a) 0).saveBalance b
          (Transfer db a b amount b) 0) ∧
    (runCallOpsFrom (NewCallTree.add f tto d v g) ops).root = some 0 ∧
    (∀ n, (runCallOpsFrom (NewCallTree.add f tto d v g) ops).lookup 0 = some n →
      n.index = 0) := by
  have hci : t.CurrentCallIndex = 0 := by
    unfold Tracer.CurrentCallIndex
    rw [h]
  have hroot := runCallOpsFrom_root_zero ops (NewCallTree.add f tto d v g)
    (by simp [CallTree.add, NewCallTree]) (by simp [CallTree.add, NewCallTree])
    (by
      intro n hn
      injection hn with heq
      rw [← heq]
      rfl)
  refine ⟨hci, ?_, ?_, ?_, hroot.1, hroot.2⟩
  · simp [Tracer.SaveRawStateChange, StateChanges.saveRawStateChange, hci]
  · simp only [Tracer.SaveStateChange, hci]
  · simp only [Tracer.TransferWithRecord, hci]

/-- Witness for C10 at the fresh tracer. -/
theorem c10_nil_cursor_uses_root_index_witness :
    NewTracer.callTree.current = none ∧ NewTracer.CurrentCallIndex = 0 ∧
    (runCallOpsFrom (NewCallTree.add 1 none [] 0 0) [CallOp.exit 0 [] none]).root
      = some 0 := by
  have h := c10_nil_cursor_uses_root_index NewTracer rfl 1 2 3 4 (some 0) 9 []
    (fun _ => 0) 1 2 0 1 none [] 0 0 [CallOp.exit 0 [] none]
  exact ⟨rfl, h.1, h.2.2.2.2.1⟩

/-! ## Claim C7 : saveKey is idempotent -/

theorem addKey_preserves (s : StateChanges) (account slot offset typeId id : Nat)
    (a sl o t v : Nat) (h : s.index a sl o t = some v) :
    (s.addKey account slot offset typeId id).index a sl o t = some v := by
  unfold StateChanges.addKey
  cases hc : s.index account slot offset typeId with
  | some _ => exact h
  | none =>
      dsimp only
      by_cases hk : a = account ∧ sl = slot ∧ o = offset ∧ t = typeId
      · obtain ⟨rfl, rfl, rfl, rfl⟩ := hk
        rw [hc] at h
        cases h
      · rw [if_neg hk]
        exact h

theorem addKey_nodes (s : StateChanges) (account slot offset typeId id : Nat) :
    (s.addKey account slot offset typeId id).nodes = s.nodes := by
  unfold StateChanges.addKey
  cases s.index account slot offset typeId <;> rfl

theorem addKey_roots (s : StateChanges) (account slot offset typeId id : Nat) :
    (s.addKey account slot offset typeId id).roots = s.roots := by
  unfold StateChanges.addKey
  cases s.index account slot offset typeId <;> rfl

theorem addKey_cell_isSome (s : StateChanges) (account slot offset typeId id : Nat) :
    ((s.addKey account slot offset typeId id).index account slot offset typeId).isSome
      = true := by
  unfold StateChanges.addKey
  cases hc : s.index account slot offset typeId with
  | some v => simp [hc]
  | none => simp

theorem addKeyOf_nodes (s : StateChanges) (account cid : Nat) :
    (s.addKeyOf account cid).nodes = s.nodes := by
  unfold StateChanges.addKeyOf
  cases s.nodes cid with
  | none => rfl
  | some n => exact addKey_nodes s account n.slot n.offset n.typeId cid

theorem addKeyOf_roots (s : StateChanges) (account cid : Nat) :
    (s.addKeyOf account cid).roots = s.roots := by
  unfold StateChanges.addKeyOf
  cases s.nodes cid with
  | none => rfl
  | some n => exact addKey_roots s account n.slot n.offset n.typeId cid

theorem addKeyOf_preserves (s : StateChanges) (account cid : Nat)
    (a sl o t v : Nat) (h : s.index a sl o t = some v) :
    (s.addKeyOf account cid).index a sl o t = some v := by
  unfold StateChanges.addKeyOf
  cases s.nodes cid with
  | none => exact h
  | some n => exact addKey_preserves s account n.slot n.offset n.typeId cid a sl o t v h

theorem addKeyOf_post (s : StateChanges) (account cid : Nat) (n1 : StorageKey)
    (h1 : s.nodes cid = some n1) :
    ((s.addKeyOf account cid).index account n1.slot n1.offset n1.typeId).isSome
      = true := by
  unfold StateChanges.addKeyOf
  rw [h1]
  exact addKey_cell_isSome s account n1.slot n1.offset n1.typeId cid

/-- After `addChild`, the parent's `(slot, offset)` children cell holds the
returned id, the parent's label cell is occupied, and `roots` and `index`
are untouched. -/
theorem addChild_post (s : StateChanges) (pid : Nat) (pk : StorageKey)
    (slot off tid : Nat) (lab : List Nat) (hpk : s.nodes pid = some pk) :
    (s.addChild pid pk slot off tid lab).1.roots = s.roots ∧
    (s.addChild pid pk slot off tid lab).1.index = s.index ∧
    ∃ pk', (s.addChild pid pk slot off tid lab).1.nodes pid = some pk' ∧
      pk'.children slot off = some (s.addChild pid pk slot off tid lab).2 ∧
      (pk'.childrenIndex lab).isSome = true := by
  cases hch : pk.children slot off with
  | some ex =>
      cases hcidx : pk.childrenIndex lab with
      | some w =>
          refine ⟨?_, ?_, pk, ?_, ?_, ?_⟩
          · simp only [StateChanges.addChild, hch, hcidx]
          · simp only [StateChanges.addChild, hch, hcidx]
          · simp only [StateChanges.addChild, hch, hcidx]
            exact hpk
          · simp only [StateChanges.addChild, hch, hcidx]
          · simp [hcidx]
      | none =>
          have hnodes : (s.addChild pid pk slot off tid lab).1.nodes pid
              = some { pk with childrenIndex := fun l =>
                  if l = lab then some s.nextId else pk.childrenIndex l } := by
            simp [StateChanges.addChild, hch, hcidx, StateChanges.alloc,
              StateChanges.writeNode]
          refine ⟨?_, ?_, _, hnodes, ?_, ?_⟩
          · simp [StateChanges.addChild, hch, hcidx, StateChanges.alloc,
              StateChanges.writeNode]
          · simp [StateChanges.addChild, hch, hcidx, StateChanges.alloc,
              StateChanges.writeNode]
          · simp [StateChanges.addChild, hch, hcidx, StateChanges.alloc,
              StateChanges.writeNode, hch]
          · simp
  | none =>
      cases hcidx : pk.childrenIndex lab with
      | some w =>
          have hnodes : (s.addChild pid pk slot off tid lab).1.nodes pid
              = some { pk with children := fun sl o =>
                  if sl = slot ∧ o = off then some s.nextId else pk.children sl o } := by
            simp [StateChanges.addChild, hch, hcidx, StateChanges.alloc,
              StateChanges.writeNode]
          refine ⟨?_, ?_, _, hnodes, ?_, ?_⟩
          · simp [StateChanges.addChild, hch, hcidx, StateChanges.alloc,
              StateChanges.writeNode]
          · simp [StateChanges.addChild, hch, hcidx, StateChanges.alloc,
              StateChanges.writeNode]
          · simp [StateChanges.addChild, hch, hcidx, StateChanges.alloc,
              StateChanges.writeNode]
          · simp [hcidx]
      | none =>
          have hnodes : (s.addChild pid pk slot off tid lab).1.nodes pid
              = some { pk with
                  children := fun sl o =>
                    if sl = slot ∧ o = off then some s.nextId else pk.children sl o,
                  childrenIndex := fun l =>
                    if l = lab then some s.nextId else pk.childrenIndex l } := by
            simp [StateChanges.addChild, hch, hcidx, StateChanges.alloc,
              StateChanges.writeNode]
          refine ⟨?_, ?_, _, hnodes, ?_, ?_⟩
          · simp [StateChanges.addChild, hch, hcidx, StateChanges.alloc,
              StateChanges.writeNode]
          · simp [StateChanges.addChild, hch, hcidx, StateChanges.alloc,
              StateChanges.writeNode]
          · simp [StateChanges.addChild, hch, hcidx, StateChanges.alloc,
              StateChanges.writeNode]
          · simp

/-- After a successful `saveKey`, the parent node is still found the same
way, its child cells for the key are occupied, and whatever node sits at
the returned child id is indexed; this is exactly what makes a repeat of
the identical `saveKey` a no-op. -/
theorem saveKey_post (s s1 : StateChanges) (account self : Nat)
    (parent offset : Option Nat) (typeId parentTypeId : Nat) (label : List Nat)
    (offsetU8 : Nat) (hoff : checkOffset offset = some offsetU8)
    (h : s.saveKey account parent self offset typeId parentTypeId label = .ok s1) :
    ∃ pid pk1 r1,
      (match parent with
       | none => s1.roots account
       | some p => s1.findKey account p 0 parentTypeId) = some pid ∧
      s1.nodes pid = some pk1 ∧
      pk1.children self offsetU8 = some r1 ∧
      (pk1.childrenIndex label).isSome = true ∧
      (∀ n1, s1.nodes r1 = some n1 →
        (s1.index account n1.slot n1.offset n1.typeId).isSome = true) := by
  unfold StateChanges.saveKey at h
  rw [hoff] at h
  cases parent with
  | none =>
      cases hro : s.roots account with
      | some r =>
          rw [hro] at h
          simp only [] at h
          cases hnr : s.nodes r with
          | none =>
              rw [hnr] at h
              cases h
          | some rootKey =>
              rw [hnr] at h
              simp only [] at h
              injection h with h1
              subst h1
              obtain ⟨hroots, hindex, pk', hpk', hch', hcidx'⟩ :=
                addChild_post s r rootKey self offsetU8 typeId label hnr
              refine ⟨r, pk', (s.addChild r rootKey self offsetU8 typeId label).2,
                ?_, ?_, hch', hcidx', ?_⟩
              · rw [addKeyOf_roots, hroots]
                exact hro
              · rw [addKeyOf_nodes]
                exact hpk'
              · intro n1 hn1
                rw [addKeyOf_nodes] at hn1
                exact addKeyOf_post _ account _ n1 hn1
      | none =>
          rw [hro] at h
          simp only [StateChanges.alloc, eq_self_iff_true, if_true] at h
          set srt : StateChanges :=
            { s with
              nodes := fun i => if i = s.nextId then some NewRootKey else s.nodes i,
              nextId := s.nextId + 1,
              roots := fun a => if a = account then some s.nextId else s.roots a }
            with hsrt
          have hrtn : srt.nodes s.nextId = some NewRootKey := by
            rw [hsrt]
            simp
          have h' : Except.ok
              ((srt.addChild s.nextId NewRootKey self offsetU8 typeId
                label).1.addKeyOf account
               (srt.addChild s.nextId NewRootKey self offsetU8 typeId label).2)
              = Except.ok (ε := String) s1 := h
          injection h' with h1
          subst h1
          obtain ⟨hroots, hindex, pk', hpk', hch', hcidx'⟩ :=
            addChild_post srt s.nextId NewRootKey self offsetU8 typeId label hrtn
          refine ⟨s.nextId, pk',
            (srt.addChild s.nextId NewRootKey self offsetU8 typeId label).2,
            ?_, ?_, hch', hcidx', ?_⟩
          · rw [addKeyOf_roots, hroots, hsrt]
            simp
          · rw [addKeyOf_nodes]
            exact hpk'
          · intro n1 hn1
            rw [addKeyOf_nodes] at hn1
            exact addKeyOf_post _ account _ n1 hn1
  | some p =>
      simp only [] at h
      cases hfk : s.findKey account p 0 parentTypeId with
      | none =>
          rw [hfk] at h
          cases h
      | some pid =>
          rw [hfk] at h
          simp only [] at h
          cases hnp : s.nodes pid with
          | none =>
              rw [hnp] at h
              cases h
          | some parentKey =>
              rw [hnp] at h
              simp only [] at h
              injection h with h1
              subst h1
              obtain ⟨hroots, hindex, pk', hpk', hch', hcidx'⟩ :=
                addChild_post s pid parentKey self offsetU8 typeId label hnp
              refine ⟨pid, pk',
                (s.addChild pid parentKey self offsetU8 typeId label).2,
                ?_, ?_, hch', hcidx', ?_⟩
              · show _ = some pid
                apply addKeyOf_preserves
                rw [hindex]
                exact hfk
              · rw [addKeyOf_nodes]
                exact hpk'
              · intro n1 hn1
                rw [addKeyOf_nodes] at hn1
                exact addKeyOf_post _ account _ n1 hn1

/-- A `saveKey` whose parent cells are already occupied and whose child is
already indexed returns the state unchanged. -/
theorem saveKey_fixed (s1 : StateChanges) (account self : Nat)
    (parent offset : Option Nat) (typeId parentTypeId : Nat) (label : List Nat)
    (offsetU8 : Nat) (hoff : checkOffset offset = some offsetU8)
    (pid : Nat) (pk1 : StorageKey) (r1 : Nat)
    (hp : (match parent with
           | none => s1.roots account
           | some p => s1.findKey account p 0 parentTypeId) = some pid)
    (hn : s1.nodes pid = some pk1)
    (hch : pk1.children self offsetU8 = some r1)
    (hcidx : (pk1.childrenIndex label).isSome = true)
    (hidx : ∀ n1, s1.nodes r1 = some n1 →
      (s1.index account n1.slot n1.offset n1.typeId).isSome = true) :
    s1.saveKey account parent self offset typeId parentTypeId label = .ok s1 := by
  obtain ⟨w, hw⟩ := Option.isSome_iff_exists.mp hcidx
  have hnoop : s1.addKeyOf account r1 = s1 := by
    cases hnr : s1.nodes r1 with
    | none => simp only [StateChanges.addKeyOf, hnr]
    | some n1 =>
        obtain ⟨v, hv⟩ := Option.isSome_iff_exists.mp (hidx n1 hnr)
        simp only [StateChanges.addKeyOf, StateChanges.addKey, hnr, hv]
  unfold StateChanges.saveKey
  rw [hoff]
  cases parent with
  | none =>
      have hp' : s1.roots account = some pid := hp
      rw [hp']
      simp only []
      rw [hn]
      simp only [StateChanges.addChild, hch, hw]
      rw [hnoop]
  | some p =>
      have hp' : s1.findKey account p 0 parentTypeId = some pid := hp
      simp only []
      rw [hp']
      simp only []
      rw [hn]
      simp only [StateChanges.addChild, hch, hw]
      rw [hnoop]

/-- Claim C7: `saveKey` is idempotent — for every tracer state and argument
tuple on which it succeeds, invoking it a second time with the identical
arguments succeeds and returns exactly the state produced by the first
invocation (storage-key tree and index unchanged). -/
theorem c7_saveKey_idempotent (s s1 : StateChanges) (account self : Nat)
    (parent offset : Option Nat) (typeId parentTypeId : Nat) (label : List Nat)
    (h : s.saveKey account parent self offset typeId parentTypeId label = .ok s1) :
    s1.saveKey account parent self offset typeId parentTypeId label = .ok s1 := by
  cases hoff : checkOffset offset with
  | none =>
      unfold StateChanges.saveKey at h
      rw [hoff] at h
      cases h
  | some offsetU8 =>
      obtain ⟨pid, pk1, r1, hp, hn, hch, hcidx, hidx⟩ :=
        saveKey_post s s1 account self parent offset typeId parentTypeId label
          offsetU8 hoff h
      exact saveKey_fixed s1 account self parent offset typeId parentTypeId label
        offsetU8 hoff pid pk1 r1 hp hn hch hcidx hidx

/-- Witness for C7: a successful top-level `saveKey` from the fresh state,
repeated. -/
theorem c7_saveKey_idempotent_witness :
    (runOps [.skey 1 none 5 (some 0) 9 0 []]).saveKey 1 none 5 (some 0) 9 0 []
      = Except.ok (runOps [.skey 1 none 5 (some 0) 9 0 []]) :=
  c7_saveKey_idempotent NewStateChanges (runOps [.skey 1 none 5 (some 0) 9 0 []])
    1 5 none (some 0) 9 0 [] rfl

/-! ## Claim C6 : call-tree invariants -/

theorem flatMap_congr_mem {α β : Type} (l : List α) (f g : α → List β)
    (h : ∀ a ∈ l, f a = g a) : l.flatMap f = l.flatMap g := by
  induction l with
  | nil => rfl
  | cons x xs ih =>
      simp only [List.flatMap_cons]
      rw [h x (by simp), ih (fun a ha => h a (by simp [ha]))]

/-- `preorder` depends on the lookup table only at the ids it visits. -/
theorem preorder_stable (lk lk' : Nat → Option Call) :
    ∀ (fuel j : Nat),
    (∀ i, i ∈ preorder lk fuel j → childrenAt lk' i = childrenAt lk i) →
    preorder lk' fuel j = preorder lk fuel j := by
  intro fuel
  induction fuel with
  | zero =>
      intro j _
      rfl
  | succ fuel ih =>
      intro j h
      have hj : childrenAt lk' j = childrenAt lk j := h j (by simp [preorder])
      simp only [preorder, hj]
      congr 1
      apply flatMap_congr_mem
      intro c hc
      apply ih
      intro i hi
      apply h
      simp only [preorder, List.mem_cons]
      exact Or.inr (List.mem_flatMap.mpr ⟨c, hc, hi⟩)

/-- Equations for the `add` operation. -/
theorem add_count (c : CallTree) (f : Nat) (t : Option Nat) (d : List Nat)
    (v g : Nat) : (c.add f t d v g).count = c.count + 1 := rfl

theorem add_current (c : CallTree) (f : Nat) (t : Option Nat) (d : List Nat)
    (v g : Nat) : (c.add f t d v g).current = some c.count := rfl

theorem add_root (c : CallTree) (f : Nat) (t : Option Nat) (d : List Nat)
    (v g : Nat) :
    (c.add f t d v g).root = (match c.root with | none => some c.count | some r => some r) :=
  rfl

theorem add_lookup_none (c : CallTree) (hcur : c.current = none) (f : Nat)
    (t : Option Nat) (d : List Nat) (v g i : Nat) :
    (c.add f t d v g).lookup i
      = if i = c.count then some (newCallOf c f t d v g) else c.lookup i := by
  simp only [CallTree.add, hcur, newCallOf]

theorem add_lookup_some (c : CallTree) (cur : Nat) (hcur : c.current = some cur)
    (f : Nat) (t : Option Nat) (d : List Nat) (v g i : Nat) :
    (c.add f t d v g).lookup i
      = if i = c.count then some (newCallOf c f t d v g)
        else if i = cur then
          (c.lookup cur).map (fun p => { p with children := p.children ++ [c.count] })
        else c.lookup i := by
  simp only [CallTree.add, hcur, newCallOf]

/-- Equations for the `exit` operation. -/
theorem exit_of_none (c : CallTree) (hcur : c.current = none) (g : Nat)
    (r : List Nat) (e : Option String) : c.exit g r e = c := by
  unfold CallTree.exit
  rw [hcur]

theorem exit_lookup_some (c : CallTree) (cur : Nat) (hcur : c.current = some cur)
    (g : Nat) (r : List Nat) (e : Option String) (i : Nat) :
    (c.exit g r e).lookup i
      = if i = cur then
          (c.lookup cur).map
            (fun n => { n with remainingGas := g, ret := r, err := e })
        else c.lookup i := by
  unfold CallTree.exit
  rw [hcur]

theorem exit_current_some (c : CallTree) (cur : Nat) (hcur : c.current = some cur)
    (g : Nat) (r : List Nat) (e : Option String) :
    (c.exit g r e).current = (c.lookup cur).bind (fun n => n.parent) := by
  unfold CallTree.exit
  rw [hcur]

theorem exit_count (c : CallTree) (g : Nat) (r : List Nat) (e : Option String) :
    (c.exit g r e).count = c.count := by
  unfold CallTree.exit
  cases c.current <;> rfl

theorem exit_root (c : CallTree) (g : Nat) (r : List Nat) (e : Option String) :
    (c.exit g r e).root = c.root := by
  unfold CallTree.exit
  cases c.current <;> rfl

theorem callTreeWF_new : CallTreeWF NewCallTree := by
  refine ⟨?_, ?_, ?_, ?_, ?_, ?_, ?_, ?_⟩ <;>
    simp [NewCallTree]

theorem callTreeWF_add (c : CallTree) (h : CallTreeWF c) (f : Nat) (t : Option Nat)
    (d : List Nat) (v g : Nat) : CallTreeWF (c.add f t d v g) := by
  cases hcur : c.current with
  | none =>
      refine ⟨?_, ?_, ?_, ?_, ?_, ?_, ?_, ?_⟩
      · intro i hi
        rw [add_count] at hi
        rw [add_lookup_none c hcur, if_neg (by omega)]
        exact h.hyg i (by omega)
      · intro i hi
        rw [add_count] at hi
        rw [add_lookup_none c hcur]
        by_cases h1 : i = c.count
        · simp [h1]
        · rw [if_neg h1]
          exact h.dom i (by omega)
      · intro i n hn
        rw [add_lookup_none c hcur] at hn
        by_cases h1 : i = c.count
        · rw [if_pos h1] at hn
          cases hn
          exact h1.symm
        · rw [if_neg h1] at hn
          exact h.idx i n hn
      · intro i n p hn hp
        rw [add_lookup_none c hcur] at hn
        by_cases h1 : i = c.count
        · rw [if_pos h1] at hn
          cases hn
          rw [newCallOf] at hp
          simp only [hcur] at hp
          cases hp
        · rw [if_neg h1] at hn
          obtain ⟨hlt, pn, hpn, hmem⟩ := h.par i n p hn hp
          have hilt : i < c.count := by
            by_contra hge
            rw [h.hyg i (by omega)] at hn
            cases hn
          refine ⟨hlt, pn, ?_, hmem⟩
          rw [add_lookup_none c hcur, if_neg (by omega)]
          exact hpn
      · intro i n hn
        rw [add_lookup_none c hcur] at hn
        by_cases h1 : i = c.count
        · rw [if_pos h1] at hn
          cases hn
          simp [newCallOf]
        · rw [if_neg h1] at hn
          exact h.childOrd i n hn
      · intro i n hn j hj
        rw [add_count]
        rw [add_lookup_none c hcur] at hn
        by_cases h1 : i = c.count
        · rw [if_pos h1] at hn
          cases hn
          simp [newCallOf] at hj
        · rw [if_neg h1] at hn
          have := h.childBound i n hn j hj
          omega
      · intro cur hc
        rw [add_current] at hc
        cases hc
        rw [add_count]
        omega
      · rw [add_root, add_count, h.rootOk]
        by_cases h1 : c.count = 0
        · simp [h1]
        · simp [h1]
  | some cur =>
      have hclt : cur < c.count := h.curOk cur hcur
      refine ⟨?_, ?_, ?_, ?_, ?_, ?_, ?_, ?_⟩
      · intro i hi
        rw [add_count] at hi
        rw [add_lookup_some c cur hcur, if_neg (by omega), if_neg (by omega)]
        exact h.hyg i (by omega)
      · intro i hi
        rw [add_count] at hi
        rw [add_lookup_some c cur hcur]
        by_cases h1 : i = c.count
        · simp [h1]
        · rw [if_neg h1]
          by_cases h2 : i = cur
          · subst h2
            rw [if_pos rfl]
            obtain ⟨pc, hpc⟩ := Option.isSome_iff_exists.mp (h.dom i (by omega))
            simp [hpc]
          · rw [if_neg h2]
            exact h.dom i (by omega)
      · intro i n hn
        rw [add_lookup_some c cur hcur] at hn
        by_cases h1 : i = c.count
        · rw [if_pos h1] at hn
          cases hn
          exact h1.symm
        · rw [if_neg h1] at hn
          by_cases h2 : i = cur
          · rw [if_pos h2] at hn
            obtain ⟨p, hp, hpn⟩ := Option.map_eq_some'.mp hn
            rw [← hpn]
            have := h.idx cur p hp
            simp only []
            rw [this, h2]
          · rw [if_neg h2] at hn
            exact h.idx i n hn
      · intro i n p hn hp
        rw [add_lookup_some c cur hcur] at hn
        by_cases h1 : i = c.count
        · rw [if_pos h1] at hn
          cases hn
          rw [newCallOf] at hp
          simp only [hcur] at hp
          cases hp
          subst h1
          refine ⟨by omega, ?_⟩
          rw [add_lookup_some c cur hcur, if_neg (by omega), if_pos rfl]
          obtain ⟨pc, hpc⟩ := Option.isSome_iff_exists.mp (h.dom cur hclt)
          rw [hpc]
          exact ⟨_, rfl, by simp⟩
        · rw [if_neg h1] at hn
          by_cases h2 : i = cur
          · rw [if_pos h2] at hn
            obtain ⟨pc, hpc, hpcn⟩ := Option.map_eq_some'.mp hn
            have hp' : pc.parent = some p := by
              rw [← hpcn] at hp
              exact hp
            obtain ⟨hlt, pn, hpn, hmem⟩ := h.par cur pc p hpc hp'
            subst h2
            refine ⟨hlt, pn, ?_, hmem⟩
            rw [add_lookup_some c i hcur, if_neg (by omega), if_neg (by omega)]
            exact hpn
          · rw [if_neg h2] at hn
            obtain ⟨hlt, pn, hpn, hmem⟩ := h.par i n p hn hp
            have hilt : i < c.count := by
              by_contra hge
              rw [h.hyg i (by omega)] at hn
              cases hn
            refine ⟨hlt, ?_⟩
            rw [add_lookup_some c cur hcur, if_neg (by omega)]
            by_cases h3 : p = cur
            · rw [if_pos h3]
              subst h3
              rw [hpn]
              exact ⟨_, rfl, by simp [hmem]⟩
            · rw [if_neg h3]
              exact ⟨pn, hpn, hmem⟩
      · intro i n hn
        rw [add_lookup_some c cur hcur] at hn
        by_cases h1 : i = c.count
        · rw [if_pos h1] at hn
          cases hn
          simp [newCallOf]
        · rw [if_neg h1] at hn
          by_cases h2 : i = cur
          · rw [if_pos h2] at hn
            obtain ⟨pc, hpc, hpcn⟩ := Option.map_eq_some'.mp hn
            rw [← hpcn]
            simp only []
            rw [List.chain'_append]
            refine ⟨h.childOrd cur pc hpc, List.chain'_singleton _, ?_⟩
            intro x hx y hy
            simp only [List.head?_cons, Option.mem_def, Option.some.injEq] at hy
            subst hy
            exact (h.childBound cur pc hpc x (List.mem_of_mem_getLast? hx)).2
          · rw [if_neg h2] at hn
            exact h.childOrd i n hn
      · intro i n hn j hj
        rw [add_count]
        rw [add_lookup_some c cur hcur] at hn
        by_cases h1 : i = c.count
        · rw [if_pos h1] at hn
          cases hn
          simp [newCallOf] at hj
        · rw [if_neg h1] at hn
          by_cases h2 : i = cur
          · rw [if_pos h2] at hn
            obtain ⟨pc, hpc, hpcn⟩ := Option.map_eq_some'.mp hn
            rw [← hpcn] at hj
            simp only [List.mem_append, List.mem_singleton] at hj
            rcases hj with hj | hj
            · have := h.childBound cur pc hpc j hj
              subst h2
              omega
            · subst hj
              subst h2
              omega
          · rw [if_neg h2] at hn
            have := h.childBound i n hn j hj
            omega
      · intro cur' hc
        rw [add_current] at hc
        cases hc
        rw [add_count]
        omega
      · rw [add_root, add_count, h.rootOk]
        by_cases h1 : c.count = 0
        · simp [h1]
        · simp [h1]

theorem callTreeWF_exit (c : CallTree) (h : CallTreeWF c) (g : Nat) (r : List Nat)
    (e : Option String) : CallTreeWF (c.exit g r e) := by
  cases hcur : c.current with
  | none =>
      rw [exit_of_none c hcur]
      exact h
  | some cur =>
      have hclt : cur < c.count := h.curOk cur hcur
      refine ⟨?_, ?_, ?_, ?_, ?_, ?_, ?_, ?_⟩
      · intro i hi
        rw [exit_count] at hi
        rw [exit_lookup_some c cur hcur, if_neg (by omega)]
        exact h.hyg i hi
      · intro i hi
        rw [exit_count] at hi
        rw [exit_lookup_some c cur hcur]
        by_cases h2 : i = cur
        · subst h2
          rw [if_pos rfl]
          obtain ⟨n, hn⟩ := Option.isSome_iff_exists.mp (h.dom i hi)
          simp [hn]
        · rw [if_neg h2]
          exact h.dom i hi
      · intro i n hn
        rw [exit_lookup_some c cur hcur] at hn
        by_cases h2 : i = cur
        · rw [if_pos h2] at hn
          obtain ⟨p, hp, hpn⟩ := Option.map_eq_some'.mp hn
          rw [← hpn]
          have := h.idx cur p hp
          simp only []
          rw [this, h2]
        · rw [if_neg h2] at hn
          exact h.idx i n hn
      · intro i n p hn hp
        rw [exit_lookup_some c cur hcur] at hn
        have hfacts : ∃ n0, c.lookup i = some n0 ∧ n0.parent = some p ∧
            n0.children = n.children := by
          by_cases h2 : i = cur
          · rw [if_pos h2] at hn
            obtain ⟨n0, hn0, hn0n⟩ := Option.map_eq_some'.mp hn
            refine ⟨n0, h2 ▸ hn0, ?_, ?_⟩
            · rw [← hn0n] at hp
              exact hp
            · rw [← hn0n]
          · rw [if_neg h2] at hn
            exact ⟨n, hn, hp, rfl⟩
        obtain ⟨n0, hn0, hn0p, hn0c⟩ := hfacts
        obtain ⟨hlt, pn, hpn, hmem⟩ := h.par i n0 p hn0 hn0p
        refine ⟨hlt, ?_⟩
        rw [exit_lookup_some c cur hcur]
        by_cases h3 : p = cur
        · rw [if_pos h3]
          subst h3
          rw [hpn]
          exact ⟨_, rfl, by simpa using hmem⟩
        · rw [if_neg h3]
          exact ⟨pn, hpn, hmem⟩
      · intro i n hn
        rw [exit_lookup_some c cur hcur] at hn
        by_cases h2 : i = cur
        · rw [if_pos h2] at hn
          obtain ⟨n0, hn0, hn0n⟩ := Option.map_eq_some'.mp hn
          rw [← hn0n]
          exact h.childOrd cur n0 hn0
        · rw [if_neg h2] at hn
          exact h.childOrd i n hn
      · intro i n hn j hj
        rw [exit_count]
        rw [exit_lookup_some c cur hcur] at hn
        by_cases h2 : i = cur
        · rw [if_pos h2] at hn
          obtain ⟨n0, hn0, hn0n⟩ := Option.map_eq_some'.mp hn
          rw [← hn0n] at hj
          subst h2
          exact h.childBound i n0 hn0 j (by simpa using hj)
        · rw [if_neg h2] at hn
          exact h.childBound i n hn j hj
      · intro cur' hcur'
        rw [exit_current_some c cur hcur] at hcur'
        rw [exit_count]
        obtain ⟨n0, hn0, hn0p⟩ := Option.bind_eq_some.mp hcur'
        have := (h.par cur n0 cur' hn0 hn0p).1
        omega
      · rw [exit_root, exit_count]
        exact h.rootOk

theorem getLast_decomp {α : Type} :
    ∀ (l : List α) (a : α), l.getLast? = some a → ∃ init, l = init ++ [a] := by
  intro l
  induction l with
  | nil =>
      intro a h
      simp at h
  | cons x xs ih =>
      intro a h
      cases xs with
      | nil =>
          simp at h
          exact ⟨[], by rw [h]; rfl⟩
      | cons y ys =>
          rw [List.getLast?_cons_cons] at h
          obtain ⟨init, hinit⟩ := ih a h
          exact ⟨x :: init, by rw [hinit]; rfl⟩

theorem chain_gt_head :
    ∀ (l : List Nat) (a : Nat), List.Chain' (· > ·) (a :: l) → ∀ j ∈ l, j < a := by
  intro l
  induction l with
  | nil =>
      intro a _ j hj
      exact absurd hj (List.not_mem_nil j)
  | cons b t ih =>
      intro a h j hj
      rw [List.chain'_cons] at h
      rcases List.mem_cons.mp hj with rfl | hj'
      · exact h.1
      · exact lt_trans (ih b h.2 j hj') h.1

theorem stChainR_of_cons (c : CallTree) (a : Nat) (l : List Nat)
    (h : StChainR c (a :: l)) : StChainR c l := by
  cases l with
  | nil => trivial
  | cons b rest => exact h.2.2

/-- `StChainR` only looks at the parent field of chain members and the
children lists of chain members past the head. -/
theorem stChainR_congr (c c' : CallTree) :
    ∀ (l : List Nat),
    (∀ j ∈ l, ∀ n, c.lookup j = some n →
        ∃ n', c'.lookup j = some n' ∧ n'.parent = n.parent) →
    (∀ j ∈ l.tail, childrenAt c'.lookup j = childrenAt c.lookup j) →
    StChainR c l → StChainR c' l := by
  intro l
  induction l with
  | nil =>
      intro _ _ _
      trivial
  | cons a t ih =>
      cases t with
      | nil =>
          intro _ _ _
          trivial
      | cons b rest =>
          intro hpar hch h
          obtain ⟨⟨n, hn, hnp⟩, hlast, hrec⟩ := h
          obtain ⟨n', hn', hnp'⟩ := hpar a (by simp) n hn
          refine ⟨⟨n', hn', by rw [hnp', hnp]⟩, ?_, ?_⟩
          · rw [hch b (by simp)]
            exact hlast
          · exact ih (fun j hj => hpar j (List.mem_cons_of_mem a hj))
              (fun j hj => hch j (List.mem_cons_of_mem b hj)) hrec

theorem exit_childrenAt (c : CallTree) (g : Nat) (r : List Nat) (e : Option String)
    (i : Nat) : childrenAt (c.exit g r e).lookup i = childrenAt c.lookup i := by
  cases hcur : c.current with
  | none => rw [exit_of_none c hcur]
  | some cur =>
      unfold childrenAt
      rw [exit_lookup_some c cur hcur]
      by_cases h2 : i = cur
      · subst h2
        rw [if_pos rfl]
        cases c.lookup i <;> rfl
      · rw [if_neg h2]

theorem preorder_exit (c : CallTree) (g : Nat) (r : List Nat) (e : Option String)
    (fuel j : Nat) :
    preorder (c.exit g r e).lookup fuel j = preorder c.lookup fuel j :=
  preorder_stable c.lookup (c.exit g r e).lookup fuel j
    (fun i _ => exit_childrenAt c g r e i)

theorem chainInv_new : ChainInv NewCallTree [] := by
  refine ⟨callTreeWF_new, rfl, ?_, ?_, ?_, trivial, ?_, ?_, ?_⟩
  · intro j hj
    exact absurd hj (List.not_mem_nil j)
  · trivial
  · intro j hj
    simp at hj
  · intro j hj
    exact absurd hj (List.not_mem_nil j)
  · intro h0
    simp [NewCallTree] at h0
  · intro n hn
    simp [NewCallTree] at hn

theorem chainInv_exit (c : CallTree) (st : List Nat) (h : ChainInv c st)
    (g : Nat) (r : List Nat) (e : Option String) :
    ChainInv (c.exit g r e) st.tail := by
  cases hcur : c.current with
  | none =>
      rw [exit_of_none c hcur]
      have hst : st = [] := by
        cases st with
        | nil => rfl
        | cons a t =>
            rw [h.cur] at hcur
            simp at hcur
      rw [hst]
      rw [hst] at h
      exact h
  | some cur =>
      have hhead : st.head? = some cur := h.cur.symm.trans hcur
      obtain ⟨rest, hst⟩ : ∃ rest, st = cur :: rest := by
        cases st with
        | nil => simp at hhead
        | cons a t =>
            simp at hhead
            exact ⟨t, by rw [hhead]⟩
      subst hst
      have hclt : cur < c.count := h.mem cur (by simp)
      obtain ⟨nc, hnc⟩ := Option.isSome_iff_exists.mp (h.wf.dom cur hclt)
      refine ⟨callTreeWF_exit c h.wf g r e, ?_, ?_, ?_, ?_, ?_, ?_, ?_, ?_⟩
      · -- the cursor moves to the parent, the next chain member (or none)
        rw [exit_current_some c cur hcur, hnc]
        simp only [Option.some_bind]
        cases rest with
        | nil =>
            have h0 : cur = 0 := h.last0 cur (by simp)
            subst h0
            rw [h.par0 nc hnc]
            rfl
        | cons b rest' =>
            obtain ⟨⟨n, hn, hnp⟩, _, _⟩ := h.link
            rw [hn] at hnc
            cases hnc
            rw [hnp]
            rfl
      · intro j hj
        rw [exit_count]
        exact h.mem j (List.mem_cons_of_mem cur hj)
      · exact (List.chain'_cons'.mp h.sorted).2
      · intro j hj
        cases rest with
        | nil => simp at hj
        | cons b rest' =>
            exact h.last0 j (by rw [List.getLast?_cons_cons]; exact hj)
      · refine stChainR_congr c (c.exit g r e) rest ?_ ?_
          (stChainR_of_cons c cur rest h.link)
        · intro j _ n hn
          rw [exit_lookup_some c cur hcur]
          by_cases h2 : j = cur
          · subst h2
            rw [if_pos rfl, hn]
            exact ⟨_, rfl, rfl⟩
          · rw [if_neg h2]
            exact ⟨n, hn, rfl⟩
        · intro j _
          exact exit_childrenAt c g r e j
      · intro j hj fuel hf
        rw [exit_count] at hf ⊢
        rw [preorder_exit]
        exact h.pre j (List.mem_cons_of_mem cur hj) fuel hf
      · rw [exit_count]
        intro h0 fuel hf
        rw [preorder_exit]
        exact h.root0 h0 fuel hf
      · intro n hn
        rw [exit_lookup_some c cur hcur] at hn
        by_cases h2 : 0 = cur
        · rw [if_pos h2] at hn
          obtain ⟨n0, hn0, hn0n⟩ := Option.map_eq_some'.mp hn
          rw [← hn0n]
          exact h.par0 n0 (h2 ▸ hn0)
        · rw [if_neg h2] at hn
          exact h.par0 n hn

/-- Walking down the open-call chain: once the head's new-tree pre-order is
the extended range, every member's is. -/
theorem pre_add_step (c : CallTree) (hwf : CallTreeWF c) (f : Nat) (t : Option Nat)
    (d : List Nat) (v g cur : Nat) (hcur : c.current = some cur) :
    ∀ (l : List Nat),
    StChainR c l →
    (∀ j ∈ l, j < c.count) →
    (∀ j ∈ l, j ≤ cur) →
    (∀ j ∈ l, ∀ F, c.count - j ≤ F →
        preorder c.lookup F j = List.range' j (c.count - j)) →
    (∀ a, l.head? = some a → ∀ fuel, c.count + 1 - a ≤ fuel →
        preorder (c.add f t d v g).lookup fuel a
          = List.range' a (c.count + 1 - a)) →
    ∀ j ∈ l, ∀ fuel, c.count + 1 - j ≤ fuel →
        preorder (c.add f t d v g).lookup fuel j
          = List.range' j (c.count + 1 - j) := by
  intro l
  induction l with
  | nil =>
      intro _ _ _ _ _ j hj
      exact absurd hj (List.not_mem_nil j)
  | cons a rest ih =>
      intro hch hmem hle hpre hhead j hj fuel hf
      rcases List.mem_cons.mp hj with rfl | hj'
      · exact hhead j rfl fuel hf
      · cases rest with
        | nil => exact absurd hj' (List.not_mem_nil j)
        | cons b rest' =>
            have hch2 : (∃ n, c.lookup a = some n ∧ n.parent = some b) ∧
                (childrenAt c.lookup b).getLast? = some a ∧
                StChainR c (b :: rest') := hch
            obtain ⟨⟨n, hna, hnp⟩, hlastb, hrec⟩ := hch2
            have hba : b < a := (hwf.par a n b hna hnp).1
            have hbc : b < c.count := hmem b (by simp)
            have hacur : a ≤ cur := hle a (by simp)
            have hac : a < c.count := hmem a (by simp)
            have hheadb : ∀ a', (b :: rest').head? = some a' →
                ∀ fuel2, c.count + 1 - a' ≤ fuel2 →
                preorder (c.add f t d v g).lookup fuel2 a'
                  = List.range' a' (c.count + 1 - a') := by
              intro a' ha' fuel2 hf2
              have hab : b = a' := by simpa using ha'
              subst hab
              cases fuel2 with
              | zero => omega
              | succ F =>
                  obtain ⟨nb, hnb⟩ := Option.isSome_iff_exists.mp (hwf.dom b hbc)
                  have hchb : childrenAt c.lookup b = nb.children := by
                    unfold childrenAt
                    rw [hnb]
                  obtain ⟨init, hinit⟩ :=
                    getLast_decomp nb.children a (by rw [← hchb]; exact hlastb)
                  have hOldb := hpre b (by simp) (F + 1) (by omega)
                  simp only [preorder] at hOldb
                  rw [hchb, hinit, List.flatMap_append] at hOldb
                  simp only [List.flatMap_cons, List.flatMap_nil, List.append_nil]
                    at hOldb
                  have hOlda := hpre a (by simp) F (by omega)
                  rw [hOlda] at hOldb
                  have hsplit1 : List.range' b (c.count - b)
                      = b :: List.range' (b + 1) (c.count - b - 1) := by
                    conv_lhs => rw [show c.count - b = (c.count - b - 1) + 1 from by omega]
                    rw [List.range'_succ]
                  rw [hsplit1] at hOldb
                  injection hOldb with h1 hOldb
                  have hsplit2 : List.range' (b + 1) (c.count - b - 1)
                      = List.range' (b + 1) (a - b - 1)
                        ++ List.range' a (c.count - a) := by
                    have h0 := List.range'_append_1 (b + 1) (a - b - 1) (c.count - a)
                    rw [show (b + 1) + (a - b - 1) = a from by omega] at h0
                    rw [show (c.count - a) + (a - b - 1) = c.count - b - 1 from by omega]
                      at h0
                    exact h0.symm
                  rw [hsplit2] at hOldb
                  have hinitmap := (List.append_left_inj _).mp hOldb
                  simp only [preorder]
                  have hchb2 : childrenAt (c.add f t d v g).lookup b = nb.children := by
                    unfold childrenAt
                    rw [add_lookup_some c cur hcur, if_neg (by omega),
                      if_neg (by omega), hnb]
                  rw [hchb2, hinit, List.flatMap_append]
                  simp only [List.flatMap_cons, List.flatMap_nil, List.append_nil]
                  have hstable : init.flatMap (preorder (c.add f t d v g).lookup F)
                      = init.flatMap (preorder c.lookup F) := by
                    apply flatMap_congr_mem
                    intro x hx
                    apply preorder_stable
                    intro i hi
                    have himem : i ∈ List.range' (b + 1) (a - b - 1) := by
                      rw [← hinitmap]
                      exact List.mem_flatMap.mpr ⟨x, hx, hi⟩
                    rw [List.mem_range'_1] at himem
                    unfold childrenAt
                    rw [add_lookup_some c cur hcur, if_neg (by omega),
                      if_neg (by omega)]
                  rw [hstable, hinitmap]
                  have hprea : preorder (c.add f t d v g).lookup F a
                      = List.range' a (c.count + 1 - a) :=
                    hhead a rfl F (by omega)
                  rw [hprea]
                  have h3 : List.range' (b + 1) (a - b - 1)
                        ++ List.range' a (c.count + 1 - a)
                      = List.range' (b + 1) (c.count - b) := by
                    have h0 := List.range'_append_1 (b + 1) (a - b - 1) (c.count + 1 - a)
                    rw [show (b + 1) + (a - b - 1) = a from by omega] at h0
                    rw [show (c.count + 1 - a) + (a - b - 1) = c.count - b from by omega]
                      at h0
                    exact h0
                  rw [h3]
                  have h4 : c.count + 1 - b = (c.count - b) + 1 := by omega
                  rw [h4, List.range'_succ]
            exact ih hrec (fun j' hj2 => hmem j' (List.mem_cons_of_mem a hj2))
              (fun j' hj2 => hle j' (List.mem_cons_of_mem a hj2))
              (fun j' hj2 F hF => hpre j' (List.mem_cons_of_mem a hj2) F hF)
              hheadb j hj' fuel hf

theorem chainInv_add (c : CallTree) (st : List Nat) (h : ChainInv c st)
    (hno : c.count = 0 ∨ c.current ≠ none) (f : Nat) (t : Option Nat)
    (d : List Nat) (v g : Nat) :
    ChainInv (c.add f t d v g) (c.count :: st) := by
  cases hcurc : c.current with
  | none =>
      have hst : st = [] := by
        cases st with
        | nil => rfl
        | cons a t2 =>
            rw [h.cur] at hcurc
            simp at hcurc
      have hc0 : c.count = 0 := by
        rcases hno with h0 | hne
        · exact h0
        · exact absurd hcurc hne
      subst hst
      have hleaf : ∀ F, 1 ≤ F →
          preorder (c.add f t d v g).lookup F c.count = [c.count] := by
        intro F hF
        cases F with
        | zero => omega
        | succ F2 =>
            simp only [preorder]
            have hch0 : childrenAt (c.add f t d v g).lookup c.count = [] := by
              unfold childrenAt
              rw [add_lookup_none c hcurc, if_pos rfl]
              rfl
            rw [hch0]
            rfl
      refine ⟨callTreeWF_add c h.wf f t d v g, rfl, ?_, ?_, ?_, trivial, ?_, ?_, ?_⟩
      · intro j hj
        rw [add_count]
        simp at hj
        omega
      · exact List.chain'_singleton _
      · intro j hj
        simp at hj
        omega
      · intro j hj fuel hf
        rw [add_count] at hf ⊢
        simp at hj
        subst hj
        rw [hleaf fuel (by omega)]
        rw [show c.count + 1 - c.count = 1 from by omega, List.range'_one]
      · intro h0 fuel hf
        rw [add_count] at hf
        rw [add_count, hc0]
        have hl := hleaf fuel (by omega)
        rw [hc0] at hl
        rw [hl]
        rfl
      · intro n hn
        rw [add_lookup_none c hcurc, if_pos (by omega)] at hn
        injection hn with hn
        rw [← hn]
        simp [newCallOf, hcurc]
  | some cur =>
      have hhead : st.head? = some cur := h.cur.symm.trans hcurc
      obtain ⟨rest, hst⟩ : ∃ rest, st = cur :: rest := by
        cases st with
        | nil => simp at hhead
        | cons a t2 =>
            simp at hhead
            exact ⟨t2, by rw [hhead]⟩
      subst hst
      have hclt : cur < c.count := h.mem cur (by simp)
      obtain ⟨nc, hnc⟩ := Option.isSome_iff_exists.mp (h.wf.dom cur hclt)
      have hchcur : childrenAt (c.add f t d v g).lookup cur
          = nc.children ++ [c.count] := by
        unfold childrenAt
        rw [add_lookup_some c cur hcurc, if_neg (by omega), if_pos rfl, hnc]
        rfl
      have hleaf : ∀ F, 1 ≤ F →
          preorder (c.add f t d v g).lookup F c.count = [c.count] := by
        intro F hF
        cases F with
        | zero => omega
        | succ F2 =>
            simp only [preorder]
            have hch0 : childrenAt (c.add f t d v g).lookup c.count = [] := by
              unfold childrenAt
              rw [add_lookup_some c cur hcurc, if_pos rfl]
              rfl
            rw [hch0]
            rfl
      have hchc : childrenAt c.lookup cur = nc.children := by
        unfold childrenAt
        rw [hnc]
      have hheadprop : ∀ fuel, c.count + 1 - cur ≤ fuel →
          preorder (c.add f t d v g).lookup fuel cur
            = List.range' cur (c.count + 1 - cur) := by
        intro fuel hf
        cases fuel with
        | zero => omega
        | succ F =>
            have hOld := h.pre cur (by simp) (F + 1) (by omega)
            simp only [preorder] at hOld
            rw [hchc] at hOld
            have hsplit1 : List.range' cur (c.count - cur)
                = cur :: List.range' (cur + 1) (c.count - cur - 1) := by
              conv_lhs =>
                rw [show c.count - cur = (c.count - cur - 1) + 1 from by omega]
              rw [List.range'_succ]
            rw [hsplit1] at hOld
            injection hOld with h1 hOld
            simp only [preorder]
            rw [hchcur, List.flatMap_append]
            simp only [List.flatMap_cons, List.flatMap_nil, List.append_nil]
            have hstable : nc.children.flatMap (preorder (c.add f t d v g).lookup F)
                = nc.children.flatMap (preorder c.lookup F) := by
              apply flatMap_congr_mem
              intro x hx
              apply preorder_stable
              intro i hi
              have himem : i ∈ List.range' (cur + 1) (c.count - cur - 1) := by
                rw [← hOld]
                exact List.mem_flatMap.mpr ⟨x, hx, hi⟩
              rw [List.mem_range'_1] at himem
              unfold childrenAt
              rw [add_lookup_some c cur hcurc, if_neg (by omega), if_neg (by omega)]
            rw [hstable, hOld, hleaf F (by omega)]
            have h3 : List.range' (cur + 1) (c.count - cur - 1) ++ [c.count]
                = List.range' (cur + 1) (c.count - cur) := by
              have h0 := List.range'_append_1 (cur + 1) (c.count - cur - 1) 1
              rw [show (cur + 1) + (c.count - cur - 1) = c.count from by omega] at h0
              rw [show 1 + (c.count - cur - 1) = c.count - cur from by omega] at h0
              rw [List.range'_one] at h0
              exact h0
            rw [h3]
            rw [show c.count + 1 - cur = (c.count - cur) + 1 from by omega,
              List.range'_succ]
      have hLE : ∀ j ∈ cur :: rest, j ≤ cur := by
        intro j2 hj2
        rcases List.mem_cons.mp hj2 with rfl | hj3
        · exact le_rfl
        · exact le_of_lt (chain_gt_head rest cur h.sorted j2 hj3)
      have hHEAD : ∀ a, (cur :: rest).head? = some a →
          ∀ fuel2, c.count + 1 - a ≤ fuel2 →
          preorder (c.add f t d v g).lookup fuel2 a
            = List.range' a (c.count + 1 - a) := by
        intro a ha fuel2 hf2
        have hac : cur = a := by simpa using ha
        subst hac
        exact hheadprop fuel2 hf2
      refine ⟨callTreeWF_add c h.wf f t d v g, rfl, ?_, ?_, ?_, ?_, ?_, ?_, ?_⟩
      · intro j hj
        rw [add_count]
        rcases List.mem_cons.mp hj with rfl | hj2
        · omega
        · have := h.mem j hj2
          omega
      · rw [List.chain'_cons]
        exact ⟨hclt, h.sorted⟩
      · intro j hj
        rw [List.getLast?_cons_cons] at hj
        exact h.last0 j hj
      · refine ⟨⟨newCallOf c f t d v g, ?_, ?_⟩, ?_, ?_⟩
        · rw [add_lookup_some c cur hcurc, if_pos rfl]
        · simp [newCallOf, hcurc]
        · rw [hchcur]
          exact List.getLast?_concat _
        · refine stChainR_congr c (c.add f t d v g) (cur :: rest) ?_ ?_ h.link
          · intro j hjm n hn
            rw [add_lookup_some c cur hcurc]
            have hjc : j < c.count := h.mem j hjm
            rw [if_neg (by omega)]
            by_cases h2 : j = cur
            · subst h2
              rw [if_pos rfl, hn]
              exact ⟨_, rfl, rfl⟩
            · rw [if_neg h2]
              exact ⟨n, hn, rfl⟩
          · intro j hjt
            have hjcur : j < cur := chain_gt_head rest cur h.sorted j hjt
            have hjc : j < c.count := h.mem j (List.mem_cons_of_mem cur hjt)
            unfold childrenAt
            rw [add_lookup_some c cur hcurc, if_neg (by omega), if_neg (by omega)]
      · intro j hj fuel hf
        rw [add_count] at hf ⊢
        rcases List.mem_cons.mp hj with rfl | hj2
        · rw [hleaf fuel (by omega)]
          rw [show c.count + 1 - c.count = 1 from by omega, List.range'_one]
        · exact pre_add_step c h.wf f t d v g cur hcurc (cur :: rest) h.link
            h.mem hLE h.pre hHEAD j hj2 fuel hf
      · intro h0 fuel hf
        rw [add_count] at hf ⊢
        obtain ⟨x, hx⟩ : ∃ x, (cur :: rest).getLast? = some x := by
          cases hx : (cur :: rest).getLast? with
          | some x => exact ⟨x, rfl⟩
          | none => exact absurd hx (by simp)
        have hx0 : x = 0 := h.last0 x hx
        subst hx0
        have h0mem : (0 : Nat) ∈ cur :: rest := List.mem_of_mem_getLast? hx
        have hp := pre_add_step c h.wf f t d v g cur hcurc (cur :: rest) h.link
            h.mem hLE h.pre hHEAD 0 h0mem fuel (by omega)
        simpa using hp
      · intro n hn
        rw [add_lookup_some c cur hcurc, if_neg (by omega)] at hn
        by_cases h2 : 0 = cur
        · rw [if_pos h2] at hn
          obtain ⟨n0, hn0, hn0n⟩ := Option.map_eq_some'.mp hn
          rw [← hn0n]
          exact h.par0 n0 (by rw [h2]; exact hn0)
        · rw [if_neg h2] at hn
          exact h.par0 n hn

theorem callTreeWF_run : ∀ (ops : List CallOp) (c : CallTree),
    CallTreeWF c → CallTreeWF (runCallOpsFrom c ops) := by
  intro ops
  induction ops with
  | nil => exact fun c h => h
  | cons op rest ih =>
      intro c h
      cases op with
      | add f t d v g => exact ih (c.add f t d v g) (callTreeWF_add c h f t d v g)
      | exit g r e => exact ih (c.exit g r e) (callTreeWF_exit c h g r e)

theorem chainInv_run : ∀ (ops : List CallOp) (c : CallTree) (st : List Nat),
    ChainInv c st → NoOrphan c ops →
    ∃ st2, ChainInv (runCallOpsFrom c ops) st2 := by
  intro ops
  induction ops with
  | nil => exact fun c st h _ => ⟨st, h⟩
  | cons op rest ih =>
      intro c st h hno
      cases op with
      | add f t d v g =>
          exact ih (c.add f t d v g) (c.count :: st)
            (chainInv_add c st h hno.1 f t d v g) hno.2
      | exit g r e =>
          exact ih (c.exit g r e) st.tail (chainInv_exit c st h g r e) hno

/-- For claim C6: after `add; exit; add` — a sequence the tracer accepts —
the pre-order traversal from the recorded root is `[0]`, not the gap-free
`[0, 1]`: the second `add` runs with a nil cursor, so call 1 becomes a
second root that the recorded root call 0 never reaches. -/
theorem c6_preorder_gap_counterexample :
    (runCallOps [CallOp.add 1 none [] 0 0, CallOp.exit 0 [] none,
        CallOp.add 1 none [] 0 0]).count = 2 ∧
    (runCallOps [CallOp.add 1 none [] 0 0, CallOp.exit 0 [] none,
        CallOp.add 1 none [] 0 0]).root = some 0 ∧
    preorder (runCallOps [CallOp.add 1 none [] 0 0, CallOp.exit 0 [] none,
        CallOp.add 1 none [] 0 0]).lookup 2 0 = [0] ∧
    ([0] : List Nat) ≠ List.range' 0 2 :=
  ⟨rfl, rfl, rfl, by decide⟩

/-- Claim C6 (amended): in every call tree reachable from the empty tree by
a sequence of `add` and `exit` operations, every call with a non-nil parent
has `parent.index < index` and appears in its parent's children list, and
every children list is in entry (index) order; provided additionally that no
`add` is performed while the non-empty tree's cursor is nil (`NoOrphan` —
i.e. no call is entered after the root call has exited), the pre-order
traversal from the root yields the gap-free index sequence
`0, 1, …, count-1`. -/
theorem c6_call_tree_invariants (ops : List CallOp) :
    (∀ i n p, (runCallOps ops).lookup i = some n → n.parent = some p →
      ∃ pn, (runCallOps ops).lookup p = some pn ∧ pn.index < n.index ∧
        i ∈ pn.children) ∧
    (∀ i n, (runCallOps ops).lookup i = some n →
      List.Chain' (· < ·) n.children) ∧
    (NoOrphan NewCallTree ops → ∀ r, (runCallOps ops).root = some r →
      preorder (runCallOps ops).lookup (runCallOps ops).count r
        = List.range' 0 (runCallOps ops).count) := by
  have hrun : runCallOps ops = runCallOpsFrom NewCallTree ops := rfl
  have hwf : CallTreeWF (runCallOps ops) := by
    rw [hrun]
    exact callTreeWF_run ops NewCallTree callTreeWF_new
  refine ⟨?_, ?_, ?_⟩
  · intro i n p hn hp
    obtain ⟨hlt, pn, hpn, hmem⟩ := hwf.par i n p hn hp
    refine ⟨pn, hpn, ?_, hmem⟩
    rw [hwf.idx i n hn, hwf.idx p pn hpn]
    exact hlt
  · exact fun i n hn => hwf.childOrd i n hn
  · intro hno r hr
    obtain ⟨st, hinv⟩ : ∃ st, ChainInv (runCallOps ops) st := by
      rw [hrun]
      exact chainInv_run ops NewCallTree [] chainInv_new hno
    have hr2 : (if (runCallOps ops).count = 0 then none else some 0) = some r := by
      rw [← hwf.rootOk]
      exact hr
    by_cases h0 : (runCallOps ops).count = 0
    · rw [if_pos h0] at hr2
      exact absurd hr2 (by simp)
    · rw [if_neg h0] at hr2
      injection hr2 with hr2
      subst hr2
      exact hinv.root0 (by omega) (runCallOps ops).count le_rfl

theorem c6_call_tree_invariants_witness :
    NoOrphan NewCallTree [CallOp.add 1 none [] 0 0, CallOp.add 2 none [] 0 0,
      CallOp.exit 0 [] none, CallOp.exit 0 [] none] ∧
    (runCallOps [CallOp.add 1 none [] 0 0, CallOp.add 2 none [] 0 0,
      CallOp.exit 0 [] none, CallOp.exit 0 [] none]).root = some 0 ∧
    preorder (runCallOps [CallOp.add 1 none [] 0 0, CallOp.add 2 none [] 0 0,
        CallOp.exit 0 [] none, CallOp.exit 0 [] none]).lookup
      (runCallOps [CallOp.add 1 none [] 0 0, CallOp.add 2 none [] 0 0,
        CallOp.exit 0 [] none, CallOp.exit 0 [] none]).count 0
      = List.range' 0 2 := by
  have hno : NoOrphan NewCallTree [CallOp.add 1 none [] 0 0,
      CallOp.add 2 none [] 0 0, CallOp.exit 0 [] none, CallOp.exit 0 [] none] :=
    ⟨Or.inl rfl, Or.inr (fun hc => Option.noConfusion hc), trivial⟩
  refine ⟨hno, rfl, ?_⟩
  exact (c6_call_tree_invariants [CallOp.add 1 none [] 0 0,
    CallOp.add 2 none [] 0 0, CallOp.exit 0 [] none,
    CallOp.exit 0 [] none]).2.2 hno 0 rfl

/-! ## Claim C5 : label-reachable nodes and the flat index -/

theorem journalChanges_slot (k : StorageKey) (ci : Nat) (v : List Nat) :
    (k.JournalChanges ci v).slot = k.slot := by
  unfold StorageKey.JournalChanges
  cases k.changes <;> rfl

theorem journalChanges_offset (k : StorageKey) (ci : Nat) (v : List Nat) :
    (k.JournalChanges ci v).offset = k.offset := by
  unfold StorageKey.JournalChanges
  cases k.changes <;> rfl

theorem journalChanges_typeId (k : StorageKey) (ci : Nat) (v : List Nat) :
    (k.JournalChanges ci v).typeId = k.typeId := by
  unfold StorageKey.JournalChanges
  cases k.changes <;> rfl

theorem journalChanges_children (k : StorageKey) (ci : Nat) (v : List Nat) :
    (k.JournalChanges ci v).children = k.children := by
  unfold StorageKey.JournalChanges
  cases k.changes <;> rfl

theorem journalChanges_childrenIndex (k : StorageKey) (ci : Nat) (v : List Nat) :
    (k.JournalChanges ci v).childrenIndex = k.childrenIndex := by
  unfold StorageKey.JournalChanges
  cases k.changes <;> rfl

theorem keyInv_mono (s : StateChanges) (used used2 : List (Nat × Nat))
    (owner : Nat → Option Nat) (h : KeyInv s used owner)
    (hsub : ∀ c ∈ used, c ∈ used2) : KeyInv s used2 owner :=
  ⟨h.hyg, h.rootsAlloc, h.rootOwn, h.idxNode, h.idxOwn,
   fun a sl o t hs => hsub _ (h.idxDom a sl o t hs),
   fun id n sl o hn hs => hsub _ (h.childDom id n sl o hn hs), h.edgeIdx⟩

theorem keyInv_new : KeyInv NewStateChanges [] (fun _ => none) := by
  refine ⟨fun id _ => rfl, ?_, ?_, ?_, ?_, ?_, ?_, ?_⟩
  · intro a rid hr
    exact Option.noConfusion hr
  · intro a rid hr
    exact Option.noConfusion hr
  · intro a sl o t id hc
    exact Option.noConfusion hc
  · intro a sl o t id hc
    exact Option.noConfusion hc
  · intro a sl o t hs
    simp [NewStateChanges] at hs
  · intro id n sl o hn
    exact Option.noConfusion hn
  · intro id n lab cid hn
    exact Option.noConfusion hn

theorem keyInv_writeJournal (s : StateChanges) (used : List (Nat × Nat))
    (owner : Nat → Option Nat) (h : KeyInv s used owner) (id : Nat)
    (n : StorageKey) (hn : s.nodes id = some n) (ci : Nat) (v : List Nat) :
    KeyInv (s.writeNode id (n.JournalChanges ci v)) used owner := by
  have hnodes : ∀ i, (s.writeNode id (n.JournalChanges ci v)).nodes i
      = if i = id then some (n.JournalChanges ci v) else s.nodes i := fun i => rfl
  have hlt : id < s.nextId := by
    by_contra hge
    rw [h.hyg id (by omega)] at hn
    cases hn
  refine ⟨?_, ?_, h.rootOwn, ?_, h.idxOwn, h.idxDom, ?_, ?_⟩
  · intro i hi
    have hi2 : s.nextId ≤ i := hi
    rw [hnodes i, if_neg (by omega)]
    exact h.hyg i hi2
  · intro a rid hrid
    have hrid2 : s.roots a = some rid := hrid
    rw [hnodes rid]
    by_cases h2 : rid = id
    · rw [if_pos h2]
      rfl
    · rw [if_neg h2]
      exact h.rootsAlloc a rid hrid2
  · intro a sl o t i hcell
    have hcell2 : s.index a sl o t = some i := hcell
    obtain ⟨m, hm, h1, h2, h3⟩ := h.idxNode a sl o t i hcell2
    rw [hnodes i]
    by_cases he : i = id
    · subst he
      rw [hn] at hm
      injection hm with hm
      subst hm
      exact ⟨n.JournalChanges ci v, by rw [if_pos rfl],
        by rw [journalChanges_slot]; exact h1,
        by rw [journalChanges_offset]; exact h2,
        by rw [journalChanges_typeId]; exact h3⟩
    · rw [if_neg he]
      exact ⟨m, hm, h1, h2, h3⟩
  · intro i m sl o hm hsome
    rw [hnodes i] at hm
    by_cases he : i = id
    · rw [if_pos he] at hm
      injection hm with hm
      rw [← hm, journalChanges_children] at hsome
      exact h.childDom id n sl o hn hsome
    · rw [if_neg he] at hm
      exact h.childDom i m sl o hm hsome
  · intro i m lab cid hm hedge
    rw [hnodes i] at hm
    have hstep : ∃ m0, s.nodes i = some m0 ∧ m0.childrenIndex = m.childrenIndex := by
      by_cases he : i = id
      · rw [if_pos he] at hm
        injection hm with hm
        refine ⟨n, he ▸ hn, ?_⟩
        rw [← hm, journalChanges_childrenIndex]
      · rw [if_neg he] at hm
        exact ⟨m, hm, rfl⟩
    obtain ⟨m0, hm0, hcix⟩ := hstep
    obtain ⟨a, cn, hao, hcn, hidx⟩ :=
      h.edgeIdx i m0 lab cid hm0 (by rw [hcix]; exact hedge)
    by_cases he2 : cid = id
    · rw [he2, hn] at hcn
      injection hcn with hcn
      subst hcn
      refine ⟨a, n.JournalChanges ci v, hao, ?_, ?_⟩
      · rw [hnodes cid, if_pos he2]
      · rw [journalChanges_slot, journalChanges_offset, journalChanges_typeId]
        exact hidx
    · exact ⟨a, cn, hao, by rw [hnodes cid, if_neg he2]; exact hcn, hidx⟩

theorem keyInv_schange (s : StateChanges) (used : List (Nat × Nat))
    (owner : Nat → Option Nat) (h : KeyInv s used owner) (a self : Nat)
    (off : Option Nat) (t ci : Nat) (v : List Nat) :
    KeyInv (execOp s (.schange a self off t ci v)) used owner := by
  simp only [execOp]
  unfold StateChanges.saveChange
  cases hco : checkOffset off with
  | none =>
      simp only []
      exact h
  | some o =>
      simp only []
      cases hro : s.roots a with
      | none => exact h
      | some r =>
          simp only []
          cases hfk : s.findKey a self o t with
          | none => exact h
          | some id =>
              simp only []
              cases hnd : s.nodes id with
              | none => exact h
              | some n =>
                  simp only []
                  exact keyInv_writeJournal s used owner h id n hnd ci v

theorem addKey_nextId (s : StateChanges) (account slot offset typeId id : Nat) :
    (s.addKey account slot offset typeId id).nextId = s.nextId := by
  unfold StateChanges.addKey
  cases s.index account slot offset typeId <;> rfl

theorem addKeyOf_nextId (s : StateChanges) (account cid : Nat) :
    (s.addKeyOf account cid).nextId = s.nextId := by
  unfold StateChanges.addKeyOf
  cases s.nodes cid with
  | none => rfl
  | some n => exact addKey_nextId s account n.slot n.offset n.typeId cid

/-- Core preservation step for `saveKey`'s child installation: an abstract
description of the state after `addChild` + `addKeyOf` on a parent owned by
`a`, at a fresh coordinate. -/
theorem keyInv_child_core (s : StateChanges) (used : List (Nat × Nat))
    (owner : Nat → Option Nat) (h : KeyInv s used owner)
    (a pid : Nat) (pk : StorageKey) (hpk : s.nodes pid = some pk)
    (hown : owner pid = some a) (hpidlt : pid < s.nextId)
    (slot off tid : Nat) (lab : List Nat) (hfree : (slot, off) ∉ used)
    (s2 : StateChanges) (pk2 : StorageKey)
    (hslot2 : pk2.slot = pk.slot) (hoff2 : pk2.offset = pk.offset)
    (htid2 : pk2.typeId = pk.typeId)
    (hch2 : ∀ sl o c, pk2.children sl o = some c →
        (sl = slot ∧ o = off ∧ c = s.nextId) ∨ pk.children sl o = some c)
    (hci2 : ∀ l c, pk2.childrenIndex l = some c →
        pk.childrenIndex l = some c ∨ (l = lab ∧ c = s.nextId))
    (hnodes2 : ∀ i, s2.nodes i = if i = pid then some pk2
        else if i = s.nextId then some (NewBranchKey slot off tid lab)
        else s.nodes i)
    (hidx2 : ∀ a2 sl o t, s2.index a2 sl o t
        = if a2 = a ∧ sl = slot ∧ o = off ∧ t = tid then some s.nextId
          else s.index a2 sl o t)
    (hroots2 : ∀ a2, s2.roots a2 = s.roots a2)
    (hnext2 : s2.nextId = s.nextId + 1) :
    KeyInv s2 ((slot, off) :: used)
      (fun i => if i = s.nextId then some a else owner i) := by
  have hOldE : ∀ i2 n2, s.nodes i2 = some n2 → ∀ lb cd, n2.childrenIndex lb = some cd →
      ∃ a3 cn, (if i2 = s.nextId then some a else owner i2) = some a3 ∧
        s2.nodes cd = some cn ∧ s2.index a3 cn.slot cn.offset cn.typeId = some cd := by
    intro i2 n2 hn2 lb cd hed
    obtain ⟨a3, cn, ha3, hcn, hidxo⟩ := h.edgeIdx i2 n2 lb cd hn2 hed
    have hi2lt : i2 < s.nextId := by
      by_contra hge
      rw [h.hyg i2 (by omega)] at hn2
      cases hn2
    have hcdlt : cd < s.nextId := by
      by_contra hge
      rw [h.hyg cd (by omega)] at hcn
      cases hcn
    by_cases hcp : cd = pid
    · have hcnpk : cn = pk := by
        rw [hcp, hpk] at hcn
        injection hcn with hcn
        exact hcn.symm
      refine ⟨a3, pk2, ?_, ?_, ?_⟩
      · rw [if_neg (by omega)]
        exact ha3
      · rw [hnodes2 cd, if_pos hcp]
      · rw [hslot2, hoff2, htid2, ← hcnpk, hidx2]
        by_cases hq : a3 = a ∧ cn.slot = slot ∧ cn.offset = off ∧ cn.typeId = tid
        · have hmem : ((slot : Nat), off) ∈ used := by
            apply h.idxDom a slot off tid
            rw [← hq.1, ← hq.2.1, ← hq.2.2.1, ← hq.2.2.2, hidxo]
            rfl
          exact absurd hmem hfree
        · rw [if_neg hq]
          exact hidxo
    · refine ⟨a3, cn, ?_, ?_, ?_⟩
      · rw [if_neg (by omega)]
        exact ha3
      · rw [hnodes2 cd, if_neg hcp, if_neg (by omega)]
        exact hcn
      · rw [hidx2]
        by_cases hq : a3 = a ∧ cn.slot = slot ∧ cn.offset = off ∧ cn.typeId = tid
        · have hmem : ((slot : Nat), off) ∈ used := by
            apply h.idxDom a slot off tid
            rw [← hq.1, ← hq.2.1, ← hq.2.2.1, ← hq.2.2.2, hidxo]
            rfl
          exact absurd hmem hfree
        · rw [if_neg hq]
          exact hidxo
  refine ⟨?_, ?_, ?_, ?_, ?_, ?_, ?_, ?_⟩
  · intro i hi
    have hi2 : s.nextId + 1 ≤ i := by
      rw [← hnext2]
      exact hi
    rw [hnodes2 i, if_neg (by omega), if_neg (by omega)]
    exact h.hyg i (by omega)
  · intro a2 rid hrid
    rw [hroots2] at hrid
    rw [hnodes2 rid]
    by_cases e1 : rid = pid
    · rw [if_pos e1]
      rfl
    · rw [if_neg e1]
      by_cases e2 : rid = s.nextId
      · rw [if_pos e2]
        rfl
      · rw [if_neg e2]
        exact h.rootsAlloc a2 rid hrid
  · intro a2 rid hrid
    rw [hroots2] at hrid
    have hrlt : rid < s.nextId := by
      have hsome := h.rootsAlloc a2 rid hrid
      by_contra hge
      rw [h.hyg rid (by omega)] at hsome
      simp at hsome
    show (if rid = s.nextId then some a else owner rid) = some a2
    rw [if_neg (by omega)]
    exact h.rootOwn a2 rid hrid
  · intro a2 sl o t i hc
    rw [hidx2] at hc
    by_cases hq : a2 = a ∧ sl = slot ∧ o = off ∧ t = tid
    · rw [if_pos hq] at hc
      injection hc with hc
      refine ⟨NewBranchKey slot off tid lab, ?_, ?_, ?_, ?_⟩
      · rw [hnodes2 i, ← hc, if_neg (by omega), if_pos rfl]
      · rw [show (NewBranchKey slot off tid lab).slot = slot from rfl, hq.2.1]
      · rw [show (NewBranchKey slot off tid lab).offset = off from rfl, hq.2.2.1]
      · rw [show (NewBranchKey slot off tid lab).typeId = tid from rfl, hq.2.2.2]
    · rw [if_neg hq] at hc
      obtain ⟨n, hn, c1, c2, c3⟩ := h.idxNode a2 sl o t i hc
      have hilt : i < s.nextId := by
        by_contra hge
        rw [h.hyg i (by omega)] at hn
        cases hn
      rw [hnodes2 i]
      by_cases e1 : i = pid
      · have hnpk : n = pk := by
          rw [e1, hpk] at hn
          injection hn with hn
          exact hn.symm
        subst hnpk
        rw [if_pos e1]
        exact ⟨pk2, rfl, by rw [hslot2]; exact c1, by rw [hoff2]; exact c2,
          by rw [htid2]; exact c3⟩
      · rw [if_neg e1, if_neg (by omega)]
        exact ⟨n, hn, c1, c2, c3⟩
  · intro a2 sl o t i hc
    rw [hidx2] at hc
    by_cases hq : a2 = a ∧ sl = slot ∧ o = off ∧ t = tid
    · rw [if_pos hq] at hc
      injection hc with hc
      show (if i = s.nextId then some a else owner i) = some a2
      rw [← hc, if_pos rfl, hq.1]
    · rw [if_neg hq] at hc
      have hilt : i < s.nextId := by
        obtain ⟨n, hn, _, _, _⟩ := h.idxNode a2 sl o t i hc
        by_contra hge
        rw [h.hyg i (by omega)] at hn
        cases hn
      show (if i = s.nextId then some a else owner i) = some a2
      rw [if_neg (by omega)]
      exact h.idxOwn a2 sl o t i hc
  · intro a2 sl o t hs
    rw [hidx2] at hs
    by_cases hq : a2 = a ∧ sl = slot ∧ o = off ∧ t = tid
    · rw [hq.2.1, hq.2.2.1]
      exact List.mem_cons_self _ _
    · rw [if_neg hq] at hs
      exact List.mem_cons_of_mem _ (h.idxDom a2 sl o t hs)
  · intro i n sl o hn hs
    rw [hnodes2 i] at hn
    by_cases e1 : i = pid
    · rw [if_pos e1] at hn
      injection hn with hn
      obtain ⟨c, hc⟩ := Option.isSome_iff_exists.mp hs
      rw [← hn] at hc
      rcases hch2 sl o c hc with ⟨rfl, rfl, _⟩ | hold
      · exact List.mem_cons_self _ _
      · exact List.mem_cons_of_mem _
          (h.childDom pid pk sl o hpk (by rw [hold]; rfl))
    · rw [if_neg e1] at hn
      by_cases e2 : i = s.nextId
      · rw [if_pos e2] at hn
        injection hn with hn
        rw [← hn] at hs
        simp [NewBranchKey] at hs
      · rw [if_neg e2] at hn
        exact List.mem_cons_of_mem _ (h.childDom i n sl o hn hs)
  · intro i n lab2 cid hn hedge
    rw [hnodes2 i] at hn
    by_cases e1 : i = pid
    · rw [if_pos e1] at hn
      injection hn with hn
      rw [← hn] at hedge
      rcases hci2 lab2 cid hedge with hold | ⟨hl, hc2⟩
      · have := hOldE pid pk hpk lab2 cid hold
        rw [← e1] at this
        exact this
      · refine ⟨a, NewBranchKey slot off tid lab, ?_, ?_, ?_⟩
        · show (if i = s.nextId then some a else owner i) = some a
          rw [e1, if_neg (by omega)]
          exact hown
        · rw [hc2, hnodes2 s.nextId, if_neg (by omega), if_pos rfl]
        · rw [show (NewBranchKey slot off tid lab).slot = slot from rfl,
            show (NewBranchKey slot off tid lab).offset = off from rfl,
            show (NewBranchKey slot off tid lab).typeId = tid from rfl, hidx2,
            if_pos ⟨rfl, rfl, rfl, rfl⟩, hc2]
    · rw [if_neg e1] at hn
      by_cases e2 : i = s.nextId
      · rw [if_pos e2] at hn
        injection hn with hn
        rw [← hn] at hedge
        simp [NewBranchKey] at hedge
      · rw [if_neg e2] at hn
        exact hOldE i n hn lab2 cid hedge

/-- `addChild` + `addKeyOf` at a fresh `(slot, off)` coordinate on an
`a`-owned parent preserves the invariant, the new node owned by `a`. -/
theorem keyInv_addChild_addKeyOf (s : StateChanges) (used : List (Nat × Nat))
    (owner : Nat → Option Nat) (h : KeyInv s used owner)
    (a pid : Nat) (pk : StorageKey) (hpk : s.nodes pid = some pk)
    (hown : owner pid = some a)
    (slot off tid : Nat) (lab : List Nat)
    (hfree : (slot, off) ∉ used) :
    KeyInv ((s.addChild pid pk slot off tid lab).1.addKeyOf a
        (s.addChild pid pk slot off tid lab).2)
      ((slot, off) :: used)
      (fun i => if i = s.nextId then some a else owner i) := by
  have hpidlt : pid < s.nextId := by
    by_contra hge
    rw [h.hyg pid (by omega)] at hpk
    cases hpk
  have hchn : pk.children slot off = none := by
    cases hc : pk.children slot off with
    | none => rfl
    | some ex =>
        exact absurd (h.childDom pid pk slot off hpk (by rw [hc]; rfl)) hfree
  have hcell : s.index a slot off tid = none := by
    cases hc : s.index a slot off tid with
    | none => rfl
    | some w =>
        exact absurd (h.idxDom a slot off tid (by rw [hc]; rfl)) hfree
  have hidx1 : (s.addChild pid pk slot off tid lab).1.index = s.index :=
    (addChild_post s pid pk slot off tid lab hpk).2.1
  have hroots1 : (s.addChild pid pk slot off tid lab).1.roots = s.roots :=
    (addChild_post s pid pk slot off tid lab hpk).1
  cases hcidx : pk.childrenIndex lab with
  | some w =>
      have hnodes2 : ∀ i, ((s.addChild pid pk slot off tid lab).1.addKeyOf a
            (s.addChild pid pk slot off tid lab).2).nodes i
          = if i = pid then
              some { pk with children := fun sl o =>
                if sl = slot ∧ o = off then some s.nextId else pk.children sl o }
            else if i = s.nextId then some (NewBranchKey slot off tid lab)
            else s.nodes i := by
        intro i
        rw [addKeyOf_nodes]
        simp [StateChanges.addChild, hchn, hcidx, StateChanges.alloc,
          StateChanges.writeNode]
      have hd2 : (s.addChild pid pk slot off tid lab).2 = s.nextId := by
        simp [StateChanges.addChild, hchn, hcidx, StateChanges.alloc]
      have hnb : (s.addChild pid pk slot off tid lab).1.nodes s.nextId
          = some (NewBranchKey slot off tid lab) := by
        have hh := hnodes2 s.nextId
        rw [addKeyOf_nodes] at hh
        rw [hh, if_neg (by omega), if_pos rfl]
      have hidx2 : ∀ a2 sl o t, ((s.addChild pid pk slot off tid lab).1.addKeyOf a
            (s.addChild pid pk slot off tid lab).2).index a2 sl o t
          = if a2 = a ∧ sl = slot ∧ o = off ∧ t = tid then some s.nextId
            else s.index a2 sl o t := by
        intro a2 sl o t
        unfold StateChanges.addKeyOf
        rw [hd2, hnb]
        simp only []
        unfold StateChanges.addKey
        rw [hidx1]
        simp only [NewBranchKey]
        rw [hcell]
      have hroots2 : ∀ a2, ((s.addChild pid pk slot off tid lab).1.addKeyOf a
            (s.addChild pid pk slot off tid lab).2).roots a2 = s.roots a2 := by
        intro a2
        rw [addKeyOf_roots, hroots1]
      have hnext2 : ((s.addChild pid pk slot off tid lab).1.addKeyOf a
            (s.addChild pid pk slot off tid lab).2).nextId = s.nextId + 1 := by
        rw [addKeyOf_nextId]
        simp [StateChanges.addChild, hchn, hcidx, StateChanges.alloc,
          StateChanges.writeNode]
      refine keyInv_child_core s used owner h a pid pk hpk hown hpidlt slot off tid
        lab hfree _
        ({ pk with children := fun sl o =>
            if sl = slot ∧ o = off then some s.nextId else pk.children sl o })
        rfl rfl rfl ?_ ?_ hnodes2 hidx2 hroots2 hnext2
      · intro sl o c hcf
        simp only [] at hcf
        by_cases hq : sl = slot ∧ o = off
        · rw [if_pos hq] at hcf
          injection hcf with hcf
          exact Or.inl ⟨hq.1, hq.2, hcf.symm⟩
        · rw [if_neg hq] at hcf
          exact Or.inr hcf
      · intro l c hcf
        simp only [] at hcf
        exact Or.inl hcf
  | none =>
      have hnodes2 : ∀ i, ((s.addChild pid pk slot off tid lab).1.addKeyOf a
            (s.addChild pid pk slot off tid lab).2).nodes i
          = if i = pid then
              some { pk with
                children := fun sl o =>
                  if sl = slot ∧ o = off then some s.nextId else pk.children sl o,
                childrenIndex := fun l =>
                  if l = lab then some s.nextId else pk.childrenIndex l }
            else if i = s.nextId then some (NewBranchKey slot off tid lab)
            else s.nodes i := by
        intro i
        rw [addKeyOf_nodes]
        simp [StateChanges.addChild, hchn, hcidx, StateChanges.alloc,
          StateChanges.writeNode]
      have hd2 : (s.addChild pid pk slot off tid lab).2 = s.nextId := by
        simp [StateChanges.addChild, hchn, hcidx, StateChanges.alloc]
      have hnb : (s.addChild pid pk slot off tid lab).1.nodes s.nextId
          = some (NewBranchKey slot off tid lab) := by
        have hh := hnodes2 s.nextId
        rw [addKeyOf_nodes] at hh
        rw [hh, if_neg (by omega), if_pos rfl]
      have hidx2 : ∀ a2 sl o t, ((s.addChild pid pk slot off tid lab).1.addKeyOf a
            (s.addChild pid pk slot off tid lab).2).index a2 sl o t
          = if a2 = a ∧ sl = slot ∧ o = off ∧ t = tid then some s.nextId
            else s.index a2 sl o t := by
        intro a2 sl o t
        unfold StateChanges.addKeyOf
        rw [hd2, hnb]
        simp only []
        unfold StateChanges.addKey
        rw [hidx1]
        simp only [NewBranchKey]
        rw [hcell]
      have hroots2 : ∀ a2, ((s.addChild pid pk slot off tid lab).1.addKeyOf a
            (s.addChild pid pk slot off tid lab).2).roots a2 = s.roots a2 := by
        intro a2
        rw [addKeyOf_roots, hroots1]
      have hnext2 : ((s.addChild pid pk slot off tid lab).1.addKeyOf a
            (s.addChild pid pk slot off tid lab).2).nextId = s.nextId + 1 := by
        rw [addKeyOf_nextId]
        simp [StateChanges.addChild, hchn, hcidx, StateChanges.alloc,
          StateChanges.writeNode]
      refine keyInv_child_core s used owner h a pid pk hpk hown hpidlt slot off tid
        lab hfree _
        ({ pk with
            children := fun sl o =>
              if sl = slot ∧ o = off then some s.nextId else pk.children sl o,
            childrenIndex := fun l =>
              if l = lab then some s.nextId else pk.childrenIndex l })
        rfl rfl rfl ?_ ?_ hnodes2 hidx2 hroots2 hnext2
      · intro sl o c hcf
        simp only [] at hcf
        by_cases hq : sl = slot ∧ o = off
        · rw [if_pos hq] at hcf
          injection hcf with hcf
          exact Or.inl ⟨hq.1, hq.2, hcf.symm⟩
        · rw [if_neg hq] at hcf
          exact Or.inr hcf
      · intro l c hcf
        simp only [] at hcf
        by_cases hq : l = lab
        · rw [if_pos hq] at hcf
          injection hcf with hcf
          exact Or.inr ⟨hq, hcf.symm⟩
        · rw [if_neg hq] at hcf
          exact Or.inl hcf

/-- Creating an account's root preserves the invariant, the root owned by
the account. -/
theorem keyInv_newRoot (s : StateChanges) (used : List (Nat × Nat))
    (owner : Nat → Option Nat) (h : KeyInv s used owner) (a : Nat) :
    KeyInv { s with
        nodes := fun i => if i = s.nextId then some NewRootKey else s.nodes i,
        nextId := s.nextId + 1,
        roots := fun x => if x = a then some s.nextId else s.roots x }
      used (fun i => if i = s.nextId then some a else owner i) := by
  refine ⟨?_, ?_, ?_, ?_, ?_, ?_, ?_, ?_⟩
  · intro i hi
    have hi2 : s.nextId + 1 ≤ i := hi
    show (if i = s.nextId then some NewRootKey else s.nodes i) = none
    rw [if_neg (by omega)]
    exact h.hyg i (by omega)
  · intro a2 rid hrid
    have hrid2 : (if a2 = a then some s.nextId else s.roots a2) = some rid := hrid
    show (if rid = s.nextId then some NewRootKey else s.nodes rid).isSome = true
    by_cases e1 : rid = s.nextId
    · rw [if_pos e1]
      rfl
    · rw [if_neg e1]
      by_cases e2 : a2 = a
      · rw [if_pos e2] at hrid2
        injection hrid2 with hrid2
        exact absurd hrid2.symm e1
      · rw [if_neg e2] at hrid2
        exact h.rootsAlloc a2 rid hrid2
  · intro a2 rid hrid
    have hrid2 : (if a2 = a then some s.nextId else s.roots a2) = some rid := hrid
    show (if rid = s.nextId then some a else owner rid) = some a2
    by_cases e2 : a2 = a
    · rw [if_pos e2] at hrid2
      injection hrid2 with hrid2
      rw [← hrid2, if_pos rfl, e2]
    · rw [if_neg e2] at hrid2
      have hrlt : rid < s.nextId := by
        have hsome := h.rootsAlloc a2 rid hrid2
        by_contra hge
        rw [h.hyg rid (by omega)] at hsome
        simp at hsome
      rw [if_neg (by omega)]
      exact h.rootOwn a2 rid hrid2
  · intro a2 sl o t i hc
    have hc2 : s.index a2 sl o t = some i := hc
    obtain ⟨n, hn, c1, c2, c3⟩ := h.idxNode a2 sl o t i hc2
    have hilt : i < s.nextId := by
      by_contra hge
      rw [h.hyg i (by omega)] at hn
      cases hn
    refine ⟨n, ?_, c1, c2, c3⟩
    show (if i = s.nextId then some NewRootKey else s.nodes i) = some n
    rw [if_neg (by omega)]
    exact hn
  · intro a2 sl o t i hc
    have hc2 : s.index a2 sl o t = some i := hc
    have hilt : i < s.nextId := by
      obtain ⟨n, hn, _, _, _⟩ := h.idxNode a2 sl o t i hc2
      by_contra hge
      rw [h.hyg i (by omega)] at hn
      cases hn
    show (if i = s.nextId then some a else owner i) = some a2
    rw [if_neg (by omega)]
    exact h.idxOwn a2 sl o t i hc2
  · intro a2 sl o t hs
    exact h.idxDom a2 sl o t hs
  · intro i n sl o hn hs
    have hn2 : (if i = s.nextId then some NewRootKey else s.nodes i) = some n := hn
    by_cases e1 : i = s.nextId
    · rw [if_pos e1] at hn2
      injection hn2 with hn2
      rw [← hn2] at hs
      simp [NewRootKey] at hs
    · rw [if_neg e1] at hn2
      exact h.childDom i n sl o hn2 hs
  · intro i n lab cid hn hedge
    have hn2 : (if i = s.nextId then some NewRootKey else s.nodes i) = some n := hn
    by_cases e1 : i = s.nextId
    · rw [if_pos e1] at hn2
      injection hn2 with hn2
      rw [← hn2] at hedge
      simp [NewRootKey] at hedge
    · rw [if_neg e1] at hn2
      obtain ⟨a3, cn, ha3, hcn, hidxo⟩ := h.edgeIdx i n lab cid hn2 hedge
      have hclt : cid < s.nextId := by
        by_contra hge
        rw [h.hyg cid (by omega)] at hcn
        cases hcn
      refine ⟨a3, cn, ?_, ?_, hidxo⟩
      · show (if i = s.nextId then some a else owner i) = some a3
        rw [if_neg e1]
        exact ha3
      · show (if cid = s.nextId then some NewRootKey else s.nodes cid) = some cn
        rw [if_neg (by omega)]
        exact hcn

/-- A guard-passing `saveKey` at a fresh coordinate preserves the invariant. -/
theorem keyInv_skey (s : StateChanges) (used : List (Nat × Nat))
    (owner : Nat → Option Nat) (h : KeyInv s used owner)
    (a : Nat) (p : Option Nat) (self : Nat) (off : Option Nat) (t pt : Nat)
    (idx : List Nat) (o : Nat) (hco : checkOffset off = some o)
    (hfresh : (self, o) ∉ used) :
    ∃ owner2, KeyInv (execOp s (.skey a p self off t pt idx))
      ((self, o) :: used) owner2 := by
  simp only [execOp]
  unfold StateChanges.saveKey
  rw [hco]
  cases p with
  | none =>
      simp only []
      cases hro : s.roots a with
      | some r =>
          simp only []
          obtain ⟨rk, hrk⟩ := Option.isSome_iff_exists.mp (h.rootsAlloc a r hro)
          rw [hrk]
          simp only []
          exact ⟨_, keyInv_addChild_addKeyOf s used owner h a r rk hrk
            (h.rootOwn a r hro) self o t idx hfresh⟩
      | none =>
          simp only [StateChanges.alloc, eq_self_iff_true, if_true]
          have h1 := keyInv_newRoot s used owner h a
          have hrtn : ({ s with
              nodes := fun i => if i = s.nextId then some NewRootKey else s.nodes i,
              nextId := s.nextId + 1,
              roots := fun x => if x = a then some s.nextId else s.roots x }
                : StateChanges).nodes s.nextId = some NewRootKey := by
            show (if s.nextId = s.nextId then some NewRootKey else s.nodes s.nextId)
              = some NewRootKey
            rw [if_pos rfl]
          have hown1 : (fun i => if i = s.nextId then some a else owner i) s.nextId
              = some a := by
            show (if s.nextId = s.nextId then some a else owner s.nextId) = some a
            rw [if_pos rfl]
          exact ⟨_, keyInv_addChild_addKeyOf _ used _ h1 a s.nextId NewRootKey hrtn
            hown1 self o t idx hfresh⟩
  | some pslot =>
      simp only []
      cases hfk : s.findKey a pslot 0 pt with
      | none =>
          simp only []
          exact ⟨owner, keyInv_mono s used _ owner h
            (fun c hc => List.mem_cons_of_mem _ hc)⟩
      | some pid =>
          simp only []
          cases hnp : s.nodes pid with
          | none =>
              simp only []
              exact ⟨owner, keyInv_mono s used _ owner h
                (fun c hc => List.mem_cons_of_mem _ hc)⟩
          | some parentKey =>
              simp only []
              have hpo : owner pid = some a := h.idxOwn a pslot 0 pt pid hfk
              exact ⟨_, keyInv_addChild_addKeyOf s used owner h a pid parentKey hnp
                hpo self o t idx hfresh⟩

theorem keyInv_run : ∀ (ops : List TracerOp) (s : StateChanges)
    (used : List (Nat × Nat)) (owner : Nat → Option Nat),
    KeyInv s used owner →
    (∀ c ∈ keyCoords ops, c ∉ used) →
    (keyCoords ops).Nodup →
    ∃ used2 owner2, KeyInv (runOpsFrom s ops) used2 owner2 := by
  intro ops
  induction ops with
  | nil => exact fun s used owner h _ _ => ⟨used, owner, h⟩
  | cons op rest ih =>
      intro s used owner h hfr hnd
      cases op with
      | schange a self off t ci v =>
          have hkc : keyCoords (TracerOp.schange a self off t ci v :: rest)
              = keyCoords rest := by
            simp [keyCoords, List.filterMap_cons, TracerOp.keyCoord]
          rw [hkc] at hfr hnd
          exact ih (execOp s (.schange a self off t ci v)) used owner
            (keyInv_schange s used owner h a self off t ci v) hfr hnd
      | skey a p self off t pt idx =>
          cases hco : checkOffset off with
          | none =>
              have hkc : keyCoords (TracerOp.skey a p self off t pt idx :: rest)
                  = keyCoords rest := by
                simp [keyCoords, List.filterMap_cons, TracerOp.keyCoord, hco]
              rw [hkc] at hfr hnd
              have hexec : execOp s (.skey a p self off t pt idx) = s := by
                simp only [execOp]
                unfold StateChanges.saveKey
                rw [hco]
              rw [show runOpsFrom s (TracerOp.skey a p self off t pt idx :: rest)
                  = runOpsFrom (execOp s (.skey a p self off t pt idx)) rest from rfl,
                hexec]
              exact ih s used owner h hfr hnd
          | some o =>
              have hkc : keyCoords (TracerOp.skey a p self off t pt idx :: rest)
                  = (self, o) :: keyCoords rest := by
                simp [keyCoords, List.filterMap_cons, TracerOp.keyCoord, hco]
              rw [hkc] at hfr hnd
              have hfresh : (self, o) ∉ used := hfr (self, o) (List.mem_cons_self _ _)
              obtain ⟨owner2, h2⟩ := keyInv_skey s used owner h a p self off t pt idx
                o hco hfresh
              refine ih (execOp s (.skey a p self off t pt idx)) ((self, o) :: used)
                owner2 h2 ?_ (List.Nodup.of_cons hnd)
              intro c hc hmem
              rcases List.mem_cons.mp hmem with he | hmem2
              · rw [List.nodup_cons] at hnd
                exact hnd.1 (he ▸ hc)
              · exact hfr c (List.mem_cons_of_mem _ hc) hmem2

theorem labelReach_indexed (s : StateChanges) (used : List (Nat × Nat))
    (owner : Nat → Option Nat) (h : KeyInv s used owner) (a : Nat) :
    ∀ id, LabelReach s a id → owner id = some a ∧
      ∃ n, s.nodes id = some n ∧ s.index a n.slot n.offset n.typeId = some id := by
  intro id hreach
  induction hreach with
  | root rid rk lab cid hroots hrk hedge =>
      obtain ⟨a3, cn, ha3, hcn, hidxo⟩ := h.edgeIdx rid rk lab cid hrk hedge
      rw [h.rootOwn a rid hroots] at ha3
      injection ha3 with ha3
      subst ha3
      exact ⟨h.idxOwn a cn.slot cn.offset cn.typeId cid hidxo, cn, hcn, hidxo⟩
  | step pid pk lab cid hr hpk hedge ih =>
      obtain ⟨a3, cn, ha3, hcn, hidxo⟩ := h.edgeIdx pid pk lab cid hpk hedge
      rw [ih.1] at ha3
      injection ha3 with ha3
      subst ha3
      exact ⟨h.idxOwn a cn.slot cn.offset cn.typeId cid hidxo, cn, hcn, hidxo⟩

/-- For claim C5: after two `saveKey` requests that collide on
`(slot, offset) = (5, 0)` but carry different labels and type ids, the node
allocated by the second request (id 2) hangs off the root by label `[3]` —
it is label-reachable — but the flat index lookup at its own coordinates
`(account 1, slot 5, offset 0, typeId 7)` finds nothing: `AddChild` stored
it in `childrenIndex` while returning the earlier `(5, 0)` occupant, which
is the node that stayed registered. -/
theorem c5_label_reach_counterexample :
    LabelReach (runOps [.skey 1 none 5 (some 0) 9 0 [],
        .skey 1 none 5 (some 0) 7 0 [3]]) 1 2 ∧
    (∃ n, (runOps [.skey 1 none 5 (some 0) 9 0 [],
        .skey 1 none 5 (some 0) 7 0 [3]]).nodes 2 = some n ∧
      n.slot = 5 ∧ n.offset = 0 ∧ n.typeId = 7) ∧
    (runOps [.skey 1 none 5 (some 0) 9 0 [],
        .skey 1 none 5 (some 0) 7 0 [3]]).findKey 1 5 0 7 = none :=
  ⟨LabelReach.root 0 _ [3] 2 rfl rfl rfl, ⟨_, rfl, rfl, rfl, rfl⟩, rfl⟩

/-- Claim C5 (amended): in every `StateChanges` state reached from the
empty state by a sequence of `saveKey`/`saveChange` requests in which no
two effective `saveKey` requests share a `(slot, offset)` coordinate pair,
every storage-key node reachable from an account's root by a path of
labels is also the node returned by the flat index lookup
`findKey(account, node.slot, node.offset, node.typeId)`. -/
theorem c5_label_reachable_indexed (ops : List TracerOp)
    (hdist : (keyCoords ops).Nodup) (a id : Nat)
    (hreach : LabelReach (runOps ops) a id) :
    ∃ n, (runOps ops).nodes id = some n ∧
      (runOps ops).findKey a n.slot n.offset n.typeId = some id := by
  have hrun : runOps ops = runOpsFrom NewStateChanges ops := rfl
  obtain ⟨used2, owner2, hinv⟩ := keyInv_run ops NewStateChanges [] (fun _ => none)
    keyInv_new (fun c _ hc => (List.not_mem_nil c) hc) hdist
  rw [hrun] at hreach ⊢
  obtain ⟨_, n, hn, hidx⟩ := labelReach_indexed _ used2 owner2 hinv a id hreach
  exact ⟨n, hn, hidx⟩

theorem c5_label_reachable_indexed_witness :
    (keyCoords [TracerOp.skey 1 none 5 (some 0) 9 0 []]).Nodup ∧
    LabelReach (runOps [TracerOp.skey 1 none 5 (some 0) 9 0 []]) 1 1 ∧
    ∃ n, (runOps [TracerOp.skey 1 none 5 (some 0) 9 0 []]).nodes 1 = some n ∧
      (runOps [TracerOp.skey 1 none 5 (some 0) 9 0 []]).findKey
        1 n.slot n.offset n.typeId = some 1 :=
  ⟨by decide, LabelReach.root 0 _ [] 1 rfl rfl rfl,
   c5_label_reachable_indexed [TracerOp.skey 1 none 5 (some 0) 9 0 []]
     (by decide) 1 1 (LabelReach.root 0 _ [] 1 rfl rfl rfl)⟩

end ArtelaEVM
